import Mathlib

set_option maxHeartbeats 1600000

/-!
Shallow embedding of the limit order book reconstruction engine in
`src/Backend/Market/OrderBook.py`.

Python objects are modelled with value semantics plus an explicit object
heap: each `Order` object created by `Book._add` is given a fresh
reference (a natural number), the order-id index maps order ids to
references, and every `LevelOrders.orders` list is a list of references.
Mutating an order in Python mutates the single heap cell, which is what
the aliasing between the index and the level queues does in the source.

Fallible paths (`assert`, `KeyError` from `levels[price]`, `ValueError`
from `list.remove`, `raise ValueError` for unknown actions) are modelled
with `Except Err`.
-/

/-- The `side` field of an MBO event: `"A"` (ask), `"B"` (bid) or `"N"`. -/
inductive Side where
  | A
  | B
  | N
deriving DecidableEq, Repr

/-- The `action` field of an MBO event: trade, fill, reset/clear, add,
cancel, modify, or an unrecognized action code. -/
inductive EventAction where
  | T
  | F
  | R
  | A
  | C
  | M
  | U
deriving DecidableEq, Repr

/-- The ways `Book.apply` can raise in the source: the
`assert side == "A" or side == "B"` in `apply`, the
`assert order.size >= size` in `_cancel`, the
`assert order.side == side` in `_modify`, a `KeyError` from
`levels[price]` in `_get_level`, a `ValueError` from `list.remove`,
the `raise ValueError(f"Unknown action: ...")`, and a dangling
reference (an artifact of the heap model, unreachable from reachable
states). -/
inductive Err where
  | sideDomain
  | cancelExceeds
  | sideChanged
  | keyError
  | valueError
  | unknownAction
  | danglingRef
deriving DecidableEq, Repr

/-- `Err`s that the spec's error taxonomy calls InvariantViolation:
the two `assert`s inside `_cancel` and `_modify`. -/
def Err.isInvariantViolation : Err → Prop
  | Err.cancelExceeds => True
  | Err.sideChanged => True
  | _ => False

instance : DecidablePred Err.isInvariantViolation := fun e =>
  match e with
  | Err.cancelExceeds => isTrue trivial
  | Err.sideChanged => isTrue trivial
  | Err.sideDomain => isFalse (fun h => h)
  | Err.keyError => isFalse (fun h => h)
  | Err.valueError => isFalse (fun h => h)
  | Err.unknownAction => isFalse (fun h => h)
  | Err.danglingRef => isFalse (fun h => h)

/-- `databento_dbn.UNDEF_PRICE` (`Int64` maximum). -/
def UNDEF_PRICE : Int := 9223372036854775807

/-- The `Order` dataclass. -/
structure Order where
  oid : Nat
  side : Side
  price : Int
  size : Nat
  ts_event : Nat
  is_tob : Bool
deriving DecidableEq, Repr

/-- The `PriceLevel` dataclass. -/
structure PriceLevel where
  price : Int
  size : Nat
  count : Nat
  ts_event : Nat
deriving DecidableEq, Repr

/-- The fields of a `databento` MBO message that `Market.apply` and
`Book.apply` read.  `flags_tob` is the boolean
`flags & RecordFlags.F_TOB`. -/
structure MBOEvent where
  ts_event : Nat
  action : EventAction
  side : Side
  order_id : Nat
  price : Int
  size : Nat
  flags_tob : Bool
  instrument_id : Nat
  publisher_id : Nat
deriving DecidableEq, Repr

/-- Association-list lookup (first binding wins), modelling `dict`
and `SortedDict` key lookup. -/
def alookup {α β : Type} [DecidableEq α] : List (α × β) → α → Option β
  | [], _ => none
  | kv :: l, k => if kv.1 = k then some kv.2 else alookup l k

/-- Association-list update-or-append, modelling `d[k] = v`. -/
def aset {α β : Type} [DecidableEq α] : List (α × β) → α → β → List (α × β)
  | [], k, v => [(k, v)]
  | kv :: l, k, v => if kv.1 = k then (k, v) :: l else kv :: aset l k v

/-- Association-list removal of the first binding of a key, modelling
`d.pop(k)` for maps whose keys are unduplicated. -/
def aremove {α β : Type} [DecidableEq α] : List (α × β) → α → List (α × β)
  | [], _ => []
  | kv :: l, k => if kv.1 = k then l else kv :: aremove l k

/-- One venue's order book for one instrument (`Book`).  `heap` and
`nextRef` realize Python object identity for the `Order` objects;
`orders_by_id` maps order ids to references; `bids`/`offers` map a
price to the reference list of the `LevelOrders` queue at that price. -/
structure Book where
  nextRef : Nat
  heap : List (Nat × Order)
  orders_by_id : List (Nat × Nat)
  bids : List (Int × List Nat)
  offers : List (Int × List Nat)
deriving DecidableEq, Repr

def Book.empty : Book := ⟨0, [], [], [], []⟩

/-- `Book._side_levels`: `self.offers if side == "A" else self.bids`. -/
def Book.sideLevels (b : Book) (s : Side) : List (Int × List Nat) :=
  if s = Side.A then b.offers else b.bids

/-- Writing back the map that `Book._side_levels` selects. -/
def Book.setSideLevels (b : Book) (s : Side) (m : List (Int × List Nat)) : Book :=
  if s = Side.A then { b with offers := m } else { b with bids := m }

/-- `list.remove(order)` on a queue of references: drop the first
reference whose heap value equals `o`; `none` models `ValueError`. -/
def removeFirstEq (h : List (Nat × Order)) (o : Order) : List Nat → Option (List Nat)
  | [] => none
  | r :: rs =>
    if alookup h r = some o then some rs
    else (removeFirstEq h o rs).map (fun q => r :: q)

/-- `Book._clear`: clear the index and both side maps. -/
def Book.clearAll (b : Book) : Book :=
  { b with orders_by_id := [], offers := [], bids := [] }

/-- `Book._add`: allocate a fresh `Order` object, index it, and append
its reference to the (lazily created) level queue at `price`. -/
def Book.add (b : Book) (ts : Nat) (s : Side) (oid : Nat) (price : Int)
    (size : Nat) (tob : Bool) : Book :=
  let o : Order := ⟨oid, s, price, size, ts, tob⟩
  let r := b.nextRef
  let lv := (alookup (b.sideLevels s) price).getD []
  let b1 := b.setSideLevels s (aset (b.sideLevels s) price (lv ++ [r]))
  { b1 with
    nextRef := r + 1
    heap := aset b.heap r o
    orders_by_id := aset b.orders_by_id oid r }

/-- `Book._cancel`. -/
def Book.cancel (b : Book) (s : Side) (oid : Nat) (price : Int) (size : Nat) :
    Except Err Book :=
  match alookup b.orders_by_id oid with
  | none => Except.ok b
  | some r =>
    match alookup b.heap r with
    | none => Except.error Err.danglingRef
    | some o =>
      match alookup (b.sideLevels s) price with
      | none => Except.error Err.keyError
      | some q =>
        if size ≤ o.size then
          let o' : Order := { o with size := o.size - size }
          let heap' := aset b.heap r o'
          if o'.size = 0 then
            match removeFirstEq heap' o' q with
            | none => Except.error Err.valueError
            | some q' =>
              let levels' :=
                if q' = [] then aremove (b.sideLevels s) price
                else aset (b.sideLevels s) price q'
              Except.ok
                { (b.setSideLevels s levels') with
                  heap := heap'
                  orders_by_id := aremove b.orders_by_id oid }
          else
            Except.ok { b with heap := heap' }
        else Except.error Err.cancelExceeds

/-- `Book._modify`. -/
def Book.modify (b : Book) (ts : Nat) (s : Side) (oid : Nat) (price : Int)
    (size : Nat) : Except Err Book :=
  match alookup b.orders_by_id oid with
  | none => Except.ok b
  | some r =>
    match alookup b.heap r with
    | none => Except.error Err.danglingRef
    | some o =>
      if o.side = s then
        match alookup (b.sideLevels s) o.price with
        | none => Except.error Err.keyError
        | some prevq =>
          let o' : Order := { o with ts_event := ts, size := size, price := price }
          if o.price ≠ price then
            match removeFirstEq b.heap o prevq with
            | none => Except.error Err.valueError
            | some prevq' =>
              let levels1 :=
                if prevq' = [] then aremove (b.sideLevels s) o.price
                else aset (b.sideLevels s) o.price prevq'
              let dest := (alookup levels1 price).getD []
              let levels2 := aset levels1 price (dest ++ [r])
              Except.ok
                { (b.setSideLevels s levels2) with heap := aset b.heap r o' }
          else
            Except.ok { b with heap := aset b.heap r o' }
      else Except.error Err.sideChanged

/-- `Book.apply`: the per-event state transition. -/
def Book.apply (b : Book) (e : MBOEvent) : Except Err Book :=
  if e.action = EventAction.T ∨ e.action = EventAction.F then Except.ok b
  else if e.action = EventAction.R then Except.ok b.clearAll
  else if ¬(e.side = Side.A ∨ e.side = Side.B) then Except.error Err.sideDomain
  else if e.price = UNDEF_PRICE ∧ e.flags_tob = true then
    Except.ok (b.setSideLevels e.side [])
  else if e.action = EventAction.A then
    Except.ok (b.add e.ts_event e.side e.order_id e.price e.size e.flags_tob)
  else if e.action = EventAction.C then
    b.cancel e.side e.order_id e.price e.size
  else if e.action = EventAction.M then
    b.modify e.ts_event e.side e.order_id e.price e.size
  else Except.error Err.unknownAction

/-- Sequential event application, stopping at the first raise. -/
def Book.applyAll : Book → List MBOEvent → Except Err Book
  | b, [] => Except.ok b
  | b, e :: es =>
    match b.apply e with
    | Except.ok b2 => Book.applyAll b2 es
    | Except.error err => Except.error err

/-- `LevelOrders.level`: the derived `PriceLevel` of the queue `q`
resting at price `p` (sizes summed, non-synthetic members counted,
timestamps maxed). -/
def levelView (h : List (Nat × Order)) (p : Int) (q : List Nat) : PriceLevel :=
  { price := p
    size := (q.map (fun r => ((alookup h r).map Order.size).getD 0)).sum
    count := (q.filter (fun r => ((alookup h r).map Order.is_tob).getD true = false)).length
    ts_event := (q.map (fun r => ((alookup h r).map Order.ts_event).getD 0)).foldl max 0 }

/-- Insertion into a sorted list of keys. -/
def insertSorted (x : Int) : List Int → List Int
  | [] => [x]
  | y :: ys => if x ≤ y then x :: y :: ys else y :: insertSorted x ys

/-- The sorted key sequence of a side map (`SortedDict` iteration order). -/
def sortKeys (m : List (Int × List Nat)) : List Int :=
  (m.map Prod.fst).foldr insertSorted []

/-- `Book.get_bid_level`: the `idx`-th highest bid level, if any. -/
def Book.get_bid_level (b : Book) (idx : Nat := 0) : Option PriceLevel :=
  if idx < b.bids.length then
    match (sortKeys b.bids).get? (b.bids.length - 1 - idx) with
    | some p =>
      match alookup b.bids p with
      | some q => some (levelView b.heap p q)
      | none => none
    | none => none
  else none

/-- `Book.get_ask_level`: the `idx`-th lowest offer level, if any. -/
def Book.get_ask_level (b : Book) (idx : Nat := 0) : Option PriceLevel :=
  if idx < b.offers.length then
    match (sortKeys b.offers).get? idx with
    | some p =>
      match alookup b.offers p with
      | some q => some (levelView b.heap p q)
      | none => none
    | none => none
  else none

/-- `Book.bbo`. -/
def Book.bbo (b : Book) : Option PriceLevel × Option PriceLevel :=
  (b.get_bid_level 0, b.get_ask_level 0)

/-- The `Market` registry: instrument id → venue id → `Book`. -/
structure Market where
  books : List (Nat × List (Nat × Book))
deriving DecidableEq, Repr

def Market.empty : Market := ⟨[]⟩

/-- Reading the book for a pair, with `defaultdict` semantics giving an
empty `Book` for unregistered pairs. -/
def Market.bookAt (m : Market) (iid vid : Nat) : Book :=
  (alookup ((alookup m.books iid).getD []) vid).getD Book.empty

/-- `Market.apply`: route the event to the (lazily created) book of its
`(instrument_id, publisher_id)` pair. -/
def Market.apply (m : Market) (e : MBOEvent) : Except Err Market :=
  let inner := (alookup m.books e.instrument_id).getD []
  let bk := (alookup inner e.publisher_id).getD Book.empty
  match bk.apply e with
  | Except.ok bk' =>
    Except.ok ⟨aset m.books e.instrument_id (aset inner e.publisher_id bk')⟩
  | Except.error err => Except.error err

/-- The books registered under an instrument, in venue insertion order
(`self.books[instrument_id].values()`). -/
def Market.venueBooks (m : Market) (iid : Nat) : List Book :=
  ((alookup m.books iid).getD []).map Prod.snd

/-- One side of `Market.aggregated_bbo`: given the non-absent per-venue
best levels in venue order, reduce their prices with `max` (bid side,
`useMax = true`) or `min` (ask side), keep the levels exactly at the
reduced price, and fold them into one `PriceLevel`. -/
def aggSide (all_best : List PriceLevel) (useMax : Bool) : Option PriceLevel :=
  match all_best with
  | [] => none
  | l :: ls =>
    let best_price :=
      (ls.map PriceLevel.price).foldl (fun a c => if useMax then max a c else min a c) l.price
    match (l :: ls).filter (fun pl => pl.price = best_price) with
    | [] => none
    | bst :: rest =>
      some
        { price := best_price
          size := ((bst :: rest).map PriceLevel.size).sum
          count := ((bst :: rest).map PriceLevel.count).sum
          ts_event := (rest.map PriceLevel.ts_event).foldl max bst.ts_event }

/-- `Market.aggregated_bbo`. -/
def Market.aggregated_bbo (m : Market) (iid : Nat) :
    Option PriceLevel × Option PriceLevel :=
  let books := m.venueBooks iid
  (aggSide (books.filterMap (fun bk => bk.get_bid_level 0)) true,
   aggSide (books.filterMap (fun bk => bk.get_ask_level 0)) false)

/-- All references resting in the queues of one side map. -/
def refsOf (m : List (Int × List Nat)) : List Nat :=
  (m.map Prod.snd).flatten

/-- The references stored in the order-id index. -/
def Book.idxRefs (b : Book) : List Nat :=
  b.orders_by_id.map Prod.snd

/-- All references resting in any queue of the book. -/
def Book.queueRefs (b : Book) : List Nat :=
  refsOf b.bids ++ refsOf b.offers

/-- Well-formedness of one side map: every queue is nonempty, and every
resting reference points at a live order whose price is the queue's key,
whose side is the map's side, and which is tracked by the index. -/
def queuesWf (h : List (Nat × Order)) (idx : List (Nat × Nat))
    (m : List (Int × List Nat)) (s : Side) : Prop :=
  ∀ pq ∈ m, pq.2 ≠ [] ∧ ∀ r ∈ pq.2,
    (alookup h r).map Order.price = some pq.1 ∧
    (alookup h r).map Order.side = some s ∧
    r ∈ idx.map Prod.snd

/-- Well-formedness of a book presented as its components, with `ms`
the side map of side `ss` and `mo` the side map of the other side `so`:
unduplicated keys everywhere, the heap covers exactly the allocated
references, every index entry names a live order carrying its own id,
both side maps are well formed, no reference rests in two queue
positions, and every indexed reference rests in some queue. -/
def SidesInv (nr : Nat) (heap : List (Nat × Order)) (idx : List (Nat × Nat))
    (ms mo : List (Int × List Nat)) (ss so : Side) : Prop :=
  (idx.map Prod.fst).Nodup ∧
  (idx.map Prod.snd).Nodup ∧
  (ms.map Prod.fst).Nodup ∧
  (mo.map Prod.fst).Nodup ∧
  (heap.map Prod.fst).Nodup ∧
  (∀ kv ∈ heap, kv.1 < nr) ∧
  (∀ kv ∈ idx, (alookup heap kv.2).map Order.oid = some kv.1) ∧
  queuesWf heap idx ms ss ∧
  queuesWf heap idx mo so ∧
  (refsOf ms ++ refsOf mo).Nodup ∧
  (∀ kv ∈ idx, kv.2 ∈ refsOf ms ++ refsOf mo)

/-- The inductive well-formedness invariant of a `Book` (bids hold
side-`B` orders, offers side-`A`). -/
def BookInv (b : Book) : Prop :=
  SidesInv b.nextRef b.heap b.orders_by_id b.bids b.offers Side.B Side.A

instance (nr : Nat) (heap : List (Nat × Order)) (idx : List (Nat × Nat))
    (ms mo : List (Int × List Nat)) (ss so : Side) :
    Decidable (SidesInv nr heap idx ms mo ss so) := by
  unfold SidesInv queuesWf; infer_instance

instance (b : Book) : Decidable (BookInv b) := by
  unfold BookInv; infer_instance

/-- The reference `r` rests in the queue found in the side map of its
order's current side under its order's current price. -/
def Book.inQueueAtCurrent (b : Book) (r : Nat) : Bool :=
  match alookup b.heap r with
  | some o => decide (r ∈ (alookup (b.sideLevels o.side) o.price).getD [])
  | none => false

/-- Spec invariant (a) of `Book`: an order appears in exactly one
LevelQueue, in the map for its current side under its current price,
iff it appears in the order-id index. -/
def orderPlacement (b : Book) : Prop :=
  (∀ kv ∈ b.orders_by_id,
    b.queueRefs.count kv.2 = 1 ∧ b.inQueueAtCurrent kv.2 = true) ∧
  (∀ r ∈ b.queueRefs, r ∈ b.idxRefs)

/-- The sum of the sizes of the index-tracked orders whose current side
and price equal `(s, p)`. -/
def indexSum (b : Book) (s : Side) (p : Int) : Nat :=
  ((b.idxRefs.filter (fun r =>
      decide ((alookup b.heap r).map Order.side = some s) &&
      decide ((alookup b.heap r).map Order.price = some p))).map
    (fun r => ((alookup b.heap r).map Order.size).getD 0)).sum

/-- The derived aggregate size of the LevelQueue of side `s` at price
`p` (`0` when no such queue exists). -/
def levelSum (b : Book) (s : Side) (p : Int) : Nat :=
  (((alookup (b.sideLevels s) p).getD []).map
    (fun r => ((alookup b.heap r).map Order.size).getD 0)).sum

/-- The event is the synthetic top-of-book clear: an undefined price
together with the top-of-book flag. -/
def tobClear (e : MBOEvent) : Prop :=
  e.price = UNDEF_PRICE ∧ e.flags_tob = true

/-- The event is an Add/Cancel/Modify/Reset event in the spec's
taxonomy: a Reset, or one of Add/Cancel/Modify with a bid or ask side
that is not the synthetic top-of-book clear. -/
def standardEvent (e : MBOEvent) : Prop :=
  e.action = EventAction.R ∨
  ((e.action = EventAction.A ∨ e.action = EventAction.C ∨ e.action = EventAction.M) ∧
    (e.side = Side.A ∨ e.side = Side.B) ∧ ¬ tobClear e)

instance : DecidablePred tobClear := fun e => by
  unfold tobClear; infer_instance

instance (b : Book) : Decidable (orderPlacement b) := by
  unfold orderPlacement; infer_instance

instance : DecidablePred standardEvent := fun e => by
  unfold standardEvent; infer_instance

/-- The run applies only standard events, and every Add names an order
id absent from the index at its application point. -/
def freshRunB : Book → List MBOEvent → Bool
  | _, [] => true
  | b, e :: es =>
    decide (standardEvent e) &&
    (decide (e.action ≠ EventAction.A) ||
      decide (alookup b.orders_by_id e.order_id = none)) &&
    (match b.apply e with
     | Except.ok b2 => freshRunB b2 es
     | Except.error _ => true)

instance {ε α : Type} [DecidableEq ε] [DecidableEq α] : DecidableEq (Except ε α) := fun x y =>
  match x, y with
  | Except.ok a, Except.ok b =>
    if h : a = b then isTrue (by rw [h])
    else isFalse (by intro hh; cases hh; exact h rfl)
  | Except.error a, Except.error b =>
    if h : a = b then isTrue (by rw [h])
    else isFalse (by intro hh; cases hh; exact h rfl)
  | Except.ok _, Except.error _ => isFalse (by intro hh; cases hh)
  | Except.error _, Except.ok _ => isFalse (by intro hh; cases hh)

@[simp]
theorem alookup_nil {α β : Type} [DecidableEq α] (k : α) :
    alookup ([] : List (α × β)) k = none := rfl

@[simp]
theorem alookup_cons {α β : Type} [DecidableEq α] (kv : α × β) (l : List (α × β)) (k : α) :
    alookup (kv :: l) k = if kv.1 = k then some kv.2 else alookup l k := rfl

@[simp]
theorem aset_nil {α β : Type} [DecidableEq α] (k : α) (v : β) :
    aset ([] : List (α × β)) k v = [(k, v)] := rfl

@[simp]
theorem aset_cons {α β : Type} [DecidableEq α] (kv : α × β) (l : List (α × β)) (k : α) (v : β) :
    aset (kv :: l) k v = if kv.1 = k then (k, v) :: l else kv :: aset l k v := rfl

@[simp]
theorem aremove_cons {α β : Type} [DecidableEq α] (kv : α × β) (l : List (α × β)) (k : α) :
    aremove (kv :: l) k = if kv.1 = k then l else kv :: aremove l k := rfl

theorem alookup_eq_none {α β : Type} [DecidableEq α] (l : List (α × β)) (k : α) :
    alookup l k = none ↔ k ∉ l.map Prod.fst := by
  induction l with
  | nil => simp
  | cons kv l ih =>
    by_cases h : kv.1 = k
    · simp [h]
    · rw [alookup_cons, if_neg h, List.map_cons, ih]
      constructor
      · intro hk hc
        rcases List.mem_cons.mp hc with hc | hc
        · exact h hc.symm
        · exact hk hc
      · intro hk hc
        exact hk (List.mem_cons_of_mem _ hc)

theorem alookup_mem {α β : Type} [DecidableEq α] {l : List (α × β)} {k : α} {v : β}
    (h : alookup l k = some v) : (k, v) ∈ l := by
  induction l with
  | nil => simp at h
  | cons kv l ih =>
    rw [alookup_cons] at h
    by_cases hk : kv.1 = k
    · rw [if_pos hk] at h
      injection h with h2
      rcases kv with ⟨a, b⟩
      have ha : a = k := hk
      have hb : b = v := h2
      subst ha
      subst hb
      exact List.mem_cons_self _ _
    · rw [if_neg hk] at h
      exact List.mem_cons_of_mem _ (ih h)

theorem mem_keys_of_alookup {α β : Type} [DecidableEq α] {l : List (α × β)} {k : α} {v : β}
    (h : alookup l k = some v) : k ∈ l.map Prod.fst := by
  have := alookup_mem h
  exact List.mem_map.mpr ⟨(k, v), this, rfl⟩

theorem alookup_of_mem_nodup {α β : Type} [DecidableEq α] {l : List (α × β)} {k : α} {v : β}
    (hn : (l.map Prod.fst).Nodup) (h : (k, v) ∈ l) : alookup l k = some v := by
  induction l with
  | nil => simp at h
  | cons kv l ih =>
    simp only [List.map_cons, List.nodup_cons] at hn
    rcases List.mem_cons.mp h with h | h
    · subst h; simp
    · have hk : kv.1 ≠ k := by
        intro hkk
        exact hn.1 (hkk ▸ List.mem_map.mpr ⟨(k, v), h, rfl⟩)
      simp [hk, ih hn.2 h]

theorem assoc_value_unique {α β : Type} [DecidableEq α] {l : List (α × β)} {k : α} {v1 v2 : β}
    (hn : (l.map Prod.fst).Nodup) (h1 : (k, v1) ∈ l) (h2 : (k, v2) ∈ l) : v1 = v2 := by
  have e1 := alookup_of_mem_nodup hn h1
  have e2 := alookup_of_mem_nodup hn h2
  rw [e1] at e2
  exact (Option.some.injEq _ _ ▸ e2)

@[simp]
theorem alookup_aset_self {α β : Type} [DecidableEq α] (l : List (α × β)) (k : α) (v : β) :
    alookup (aset l k v) k = some v := by
  induction l with
  | nil => simp [aset]
  | cons kv l ih =>
    by_cases h : kv.1 = k <;> simp [aset, h, ih]

theorem alookup_aset_ne {α β : Type} [DecidableEq α] (l : List (α × β)) {k k' : α} (v : β)
    (h : k' ≠ k) : alookup (aset l k v) k' = alookup l k' := by
  induction l with
  | nil => simp [Ne.symm h]
  | cons kv l ih =>
    by_cases hk : kv.1 = k
    · subst hk
      simp [Ne.symm h]
    · simp [hk, ih]

theorem aset_eq_append {α β : Type} [DecidableEq α] {l : List (α × β)} {k : α} (v : β)
    (h : alookup l k = none) : aset l k v = l ++ [(k, v)] := by
  induction l with
  | nil => simp [aset]
  | cons kv l ih =>
    by_cases hk : kv.1 = k
    · simp [hk] at h
    · simp [hk] at h
      simp [aset, hk, ih h]

theorem mem_aset {α β : Type} [DecidableEq α] {l : List (α × β)} {k : α} {v : β} {kv' : α × β}
    (h : kv' ∈ aset l k v) : kv' = (k, v) ∨ kv' ∈ l := by
  induction l with
  | nil => simpa [aset] using h
  | cons kv l ih =>
    by_cases hk : kv.1 = k
    · simp [aset, hk] at h
      rcases h with h | h
      · exact Or.inl h
      · exact Or.inr (List.mem_cons_of_mem _ h)
    · simp [aset, hk] at h
      rcases h with h | h
      · exact Or.inr (List.mem_cons.mpr (Or.inl h))
      · rcases ih h with h2 | h2
        · exact Or.inl h2
        · exact Or.inr (List.mem_cons_of_mem _ h2)

theorem keys_aset_of_mem {α β : Type} [DecidableEq α] {l : List (α × β)} {k : α} {v₀ : β}
    (v : β) (h : alookup l k = some v₀) :
    (aset l k v).map Prod.fst = l.map Prod.fst := by
  induction l with
  | nil => simp at h
  | cons kv l ih =>
    by_cases hk : kv.1 = k
    · simp [aset, hk]
    · simp [hk] at h
      simp [aset, hk, ih h]

@[simp]
theorem aremove_nil {α β : Type} [DecidableEq α] (k : α) :
    aremove ([] : List (α × β)) k = [] := rfl

theorem aremove_sublist {α β : Type} [DecidableEq α] (l : List (α × β)) (k : α) :
    (aremove l k).Sublist l := by
  induction l with
  | nil => simp
  | cons kv l ih =>
    rw [aremove_cons]
    by_cases hk : kv.1 = k
    · rw [if_pos hk]
      exact List.sublist_cons_self _ _
    · rw [if_neg hk]
      exact List.Sublist.cons₂ _ ih

theorem aremove_eq_of_none {α β : Type} [DecidableEq α] {l : List (α × β)} {k : α}
    (h : alookup l k = none) : aremove l k = l := by
  induction l with
  | nil => rfl
  | cons kv l ih =>
    by_cases hk : kv.1 = k
    · simp [hk] at h
    · simp [hk] at h
      simp [aremove, hk, ih h]

theorem perm_cons_aremove {α β : Type} [DecidableEq α] {l : List (α × β)} {k : α} {v : β}
    (h : alookup l k = some v) : l.Perm ((k, v) :: aremove l k) := by
  induction l with
  | nil => simp at h
  | cons kv l ih =>
    rw [alookup_cons] at h
    rw [aremove_cons]
    by_cases hk : kv.1 = k
    · rw [if_pos hk] at h
      injection h with h2
      rw [if_pos hk]
      rcases kv with ⟨a, b⟩
      have ha : a = k := hk
      have hb : b = v := h2
      subst ha
      subst hb
      exact List.Perm.refl _
    · rw [if_neg hk] at h
      rw [if_neg hk]
      exact ((ih h).cons kv).trans (List.Perm.swap _ _ _)

theorem aset_perm_cons_aremove {α β : Type} [DecidableEq α] {l : List (α × β)} {k : α} {v₀ : β}
    (v : β) (h : alookup l k = some v₀) :
    (aset l k v).Perm ((k, v) :: aremove l k) := by
  induction l with
  | nil => simp at h
  | cons kv l ih =>
    rw [alookup_cons] at h
    rw [aset_cons, aremove_cons]
    by_cases hk : kv.1 = k
    · rw [if_pos hk, if_pos hk]
    · rw [if_neg hk] at h
      rw [if_neg hk, if_neg hk]
      exact ((ih h).cons kv).trans (List.Perm.swap _ _ _)

theorem alookup_aremove_self {α β : Type} [DecidableEq α] {l : List (α × β)} {k : α}
    (hn : (l.map Prod.fst).Nodup) : alookup (aremove l k) k = none := by
  induction l with
  | nil => simp
  | cons kv l ih =>
    simp only [List.map_cons, List.nodup_cons] at hn
    rw [aremove_cons]
    by_cases hk : kv.1 = k
    · subst hk
      rw [if_pos rfl, alookup_eq_none]
      exact hn.1
    · rw [if_neg hk, alookup_cons, if_neg hk]
      exact ih hn.2

theorem alookup_aremove_ne {α β : Type} [DecidableEq α] (l : List (α × β)) {k k' : α}
    (h : k' ≠ k) : alookup (aremove l k) k' = alookup l k' := by
  induction l with
  | nil => simp
  | cons kv l ih =>
    rw [aremove_cons]
    by_cases hk : kv.1 = k
    · subst hk
      rw [if_pos rfl, alookup_cons, if_neg (fun hh : kv.1 = k' => h (hh.symm.trans rfl))]
    · rw [if_neg hk, alookup_cons, alookup_cons, ih]

theorem mem_aremove_of_ne {α β : Type} [DecidableEq α] {l : List (α × β)} {k : α}
    {kv' : α × β} (h : kv' ∈ l) (hne : kv'.1 ≠ k) : kv' ∈ aremove l k := by
  induction l with
  | nil => simp at h
  | cons kv l ih =>
    rw [aremove_cons]
    by_cases hk : kv.1 = k
    · rw [if_pos hk]
      rcases List.mem_cons.mp h with h | h
      · exact absurd (h ▸ hk) hne
      · exact h
    · rw [if_neg hk]
      rcases List.mem_cons.mp h with h | h
      · exact h ▸ List.mem_cons_self _ _
      · exact List.mem_cons_of_mem _ (ih h)

theorem alookup_append_left {α β : Type} [DecidableEq α] {l : List (α × β)} {k : α} {v : β}
    (l₂ : List (α × β)) (h : alookup l k = some v) : alookup (l ++ l₂) k = some v := by
  induction l with
  | nil => simp at h
  | cons kv l ih =>
    rw [alookup_cons] at h
    rw [List.cons_append, alookup_cons]
    by_cases hk : kv.1 = k
    · rwa [if_pos hk] at h ⊢
    · rw [if_neg hk] at h ⊢
      exact ih h

theorem alookup_append_of_none {α β : Type} [DecidableEq α] {l : List (α × β)} {k : α}
    (l₂ : List (α × β)) (h : alookup l k = none) :
    alookup (l ++ l₂) k = alookup l₂ k := by
  induction l with
  | nil => simp
  | cons kv l ih =>
    rw [alookup_cons] at h
    rw [List.cons_append, alookup_cons]
    by_cases hk : kv.1 = k
    · rw [if_pos hk] at h
      exact absurd h (by simp)
    · rw [if_neg hk] at h ⊢
      exact ih h

theorem refsOf_append (m₁ m₂ : List (Int × List Nat)) :
    refsOf (m₁ ++ m₂) = refsOf m₁ ++ refsOf m₂ := by
  simp [refsOf]

@[simp]
theorem refsOf_nil : refsOf [] = [] := rfl

@[simp]
theorem refsOf_cons (pq : Int × List Nat) (m : List (Int × List Nat)) :
    refsOf (pq :: m) = pq.2 ++ refsOf m := rfl

theorem refsOf_perm {m₁ m₂ : List (Int × List Nat)} (h : m₁.Perm m₂) :
    (refsOf m₁).Perm (refsOf m₂) :=
  (h.map Prod.snd).flatten

theorem mem_refsOf {m : List (Int × List Nat)} {r : Nat} :
    r ∈ refsOf m ↔ ∃ pq ∈ m, r ∈ pq.2 := by
  simp only [refsOf, List.mem_flatten, List.mem_map]
  constructor
  · rintro ⟨l, ⟨pq, hpq, rfl⟩, hr⟩
    exact ⟨pq, hpq, hr⟩
  · rintro ⟨pq, hpq, hr⟩
    exact ⟨pq.2, ⟨pq, hpq, rfl⟩, hr⟩

theorem refsOf_decomp {m : List (Int × List Nat)} {p : Int} {q₀ : List Nat}
    (h : alookup m p = some q₀) : (refsOf m).Perm (q₀ ++ refsOf (aremove m p)) := by
  have := refsOf_perm (perm_cons_aremove h)
  simpa using this

theorem refsOf_aset_of_mem {m : List (Int × List Nat)} {p : Int} {q₀ : List Nat}
    (q' : List Nat) (h : alookup m p = some q₀) :
    (refsOf (aset m p q')).Perm (q' ++ refsOf (aremove m p)) := by
  have := refsOf_perm (aset_perm_cons_aremove q' h)
  simpa using this

theorem refsOf_aset_new {m : List (Int × List Nat)} {p : Int} (q' : List Nat)
    (h : alookup m p = none) : refsOf (aset m p q') = refsOf m ++ q' := by
  rw [aset_eq_append q' h, refsOf_append]
  simp

theorem queuesWf_mono {h h' : List (Nat × Order)} {idx idx' : List (Nat × Nat)}
    {m : List (Int × List Nat)} {s : Side}
    (hh : ∀ r v, alookup h r = some v → alookup h' r = some v)
    (hi : ∀ x ∈ idx.map Prod.snd, x ∈ idx'.map Prod.snd)
    (hw : queuesWf h idx m s) : queuesWf h' idx' m s := by
  intro pq hpq
  obtain ⟨hne, hmem⟩ := hw pq hpq
  refine ⟨hne, fun r hr => ?_⟩
  obtain ⟨hp, hsd, hidx⟩ := hmem r hr
  rcases Option.map_eq_some'.mp hp with ⟨o, ho, hop⟩
  refine ⟨?_, ?_, hi _ hidx⟩
  · rw [hh r o ho]
    simpa using hop
  · rw [hh r o ho]
    rcases Option.map_eq_some'.mp hsd with ⟨o2, ho2, hos⟩
    rw [ho] at ho2
    cases ho2
    simpa using hos

theorem removeFirstEq_some {h : List (Nat × Order)} {o : Order} {q : List Nat} {r : Nat}
    (hr : r ∈ q) (hro : alookup h r = some o)
    (huniq : ∀ r' ∈ q, alookup h r' = some o → r' = r) :
    removeFirstEq h o q = some (q.erase r) := by
  induction q with
  | nil => simp at hr
  | cons r₁ rs ih =>
    by_cases h₁ : alookup h r₁ = some o
    · have : r₁ = r := huniq r₁ (List.mem_cons_self _ _) h₁
      subst this
      rw [removeFirstEq, if_pos h₁, List.erase_cons_head]
    · have hne : r₁ ≠ r := fun hh => h₁ (hh ▸ hro)
      have hr' : r ∈ rs := by
        rcases List.mem_cons.mp hr with hh | hh
        · exact absurd hh.symm hne
        · exact hh
      rw [removeFirstEq, if_neg h₁,
        ih hr' (fun r' hm hv => huniq r' (List.mem_cons_of_mem _ hm) hv)]
      rw [List.erase_cons_tail]
      · rfl
      · simpa using hne

theorem mem_idxRefs {b : Book} {r : Nat} :
    r ∈ b.idxRefs ↔ ∃ kv ∈ b.orders_by_id, kv.2 = r := by
  simp [Book.idxRefs]

theorem BookInv.sideKeysNodup {b : Book} (inv : BookInv b) (s : Side) :
    ((b.sideLevels s).map Prod.fst).Nodup := by
  obtain ⟨h1, h2, h3, h4, h5, h6, h7, h8, h9, h10, h11⟩ := inv
  by_cases hA : s = Side.A
  · simpa [Book.sideLevels, hA] using h4
  · simpa [Book.sideLevels, hA] using h3

theorem BookInv.queuesWf_side {b : Book} (inv : BookInv b) {s : Side}
    (hs : s = Side.A ∨ s = Side.B) :
    queuesWf b.heap b.orders_by_id (b.sideLevels s) s := by
  obtain ⟨h1, h2, h3, h4, h5, h6, h7, h8, h9, h10, h11⟩ := inv
  rcases hs with rfl | rfl
  · simpa [Book.sideLevels] using h9
  · simpa [Book.sideLevels] using h8

theorem BookInv.oid_eq {b : Book} (inv : BookInv b) {oid r : Nat} {o : Order}
    (hidx : alookup b.orders_by_id oid = some r) (ho : alookup b.heap r = some o) :
    o.oid = oid := by
  obtain ⟨h1, h2, h3, h4, h5, h6, h7, h8, h9, h10, h11⟩ := inv
  have := h7 (oid, r) (alookup_mem hidx)
  rw [ho] at this
  simpa using this

theorem BookInv.ref_lt {b : Book} (inv : BookInv b) {r : Nat}
    (h : r ∈ b.idxRefs) : r < b.nextRef := by
  obtain ⟨h1, h2, h3, h4, h5, h6, h7, h8, h9, h10, h11⟩ := inv
  rcases mem_idxRefs.mp h with ⟨kv, hkv, rfl⟩
  have := h7 kv hkv
  rcases Option.map_eq_some'.mp this with ⟨o, ho, _⟩
  exact h6 (kv.2, o) (alookup_mem ho)

theorem BookInv.fresh_not_in_heap {b : Book} (inv : BookInv b) :
    alookup b.heap b.nextRef = none := by
  obtain ⟨h1, h2, h3, h4, h5, h6, h7, h8, h9, h10, h11⟩ := inv
  rw [alookup_eq_none]
  intro hmem
  rcases List.mem_map.mp hmem with ⟨kv, hkv, hfst⟩
  exact absurd (h6 kv hkv) (by rw [hfst]; exact lt_irrefl _)

theorem BookInv.queueRefs_mem_idx {b : Book} (inv : BookInv b) {r : Nat}
    (h : r ∈ b.queueRefs) : r ∈ b.idxRefs := by
  obtain ⟨h1, h2, h3, h4, h5, h6, h7, h8, h9, h10, h11⟩ := inv
  rcases List.mem_append.mp h with h | h
  · rcases mem_refsOf.mp h with ⟨pq, hpq, hr⟩
    exact ((h8 pq hpq).2 r hr).2.2
  · rcases mem_refsOf.mp h with ⟨pq, hpq, hr⟩
    exact ((h9 pq hpq).2 r hr).2.2

theorem BookInv.locate {b : Book} (inv : BookInv b) {oid r : Nat} {o : Order}
    (hidx : alookup b.orders_by_id oid = some r) (ho : alookup b.heap r = some o) :
    ∃ q, alookup (b.sideLevels o.side) o.price = some q ∧ r ∈ q ∧
      (o.side = Side.A ∨ o.side = Side.B) := by
  obtain ⟨h1, h2, h3, h4, h5, h6, h7, h8, h9, h10, h11⟩ := inv
  have hra : r ∈ b.queueRefs := h11 (oid, r) (alookup_mem hidx)
  rcases List.mem_append.mp hra with h | h
  · rcases mem_refsOf.mp h with ⟨pq, hpq, hr⟩
    obtain ⟨hp, hsd, _⟩ := (h8 pq hpq).2 r hr
    rw [ho] at hp hsd
    simp only [Option.map_some'] at hp hsd
    have hp2 : o.price = pq.1 := by injection hp
    have hs2 : o.side = Side.B := by injection hsd
    refine ⟨pq.2, ?_, hr, Or.inr hs2⟩
    rw [hs2, hp2]
    have : alookup b.bids pq.1 = some pq.2 := alookup_of_mem_nodup h3 (by simpa using hpq)
    simpa [Book.sideLevels] using this
  · rcases mem_refsOf.mp h with ⟨pq, hpq, hr⟩
    obtain ⟨hp, hsd, _⟩ := (h9 pq hpq).2 r hr
    rw [ho] at hp hsd
    simp only [Option.map_some'] at hp hsd
    have hp2 : o.price = pq.1 := by injection hp
    have hs2 : o.side = Side.A := by injection hsd
    refine ⟨pq.2, ?_, hr, Or.inl hs2⟩
    rw [hs2, hp2]
    have : alookup b.offers pq.1 = some pq.2 := alookup_of_mem_nodup h4 (by simpa using hpq)
    simpa [Book.sideLevels] using this

theorem BookInv.unique_oid {b : Book} (inv : BookInv b) {oid r : Nat}
    (hidx : alookup b.orders_by_id oid = some r) {r' : Nat} (hr' : r' ∈ b.idxRefs)
    {o' : Order} (ho' : alookup b.heap r' = some o') (hoid : o'.oid = oid) : r' = r := by
  rcases mem_idxRefs.mp hr' with ⟨kv', hkv', rfl⟩
  obtain ⟨h1, h2, h3, h4, h5, h6, h7, h8, h9, h10, h11⟩ := inv
  have hwf := h7 kv' hkv'
  rw [ho'] at hwf
  simp only [Option.map_some'] at hwf
  have hk : kv'.1 = oid := by
    have : o'.oid = kv'.1 := by injection hwf
    rw [← this, hoid]
  have hkv2 : (oid, kv'.2) ∈ b.orders_by_id := by
    have : kv' = (oid, kv'.2) := by
      rcases kv' with ⟨a, c⟩
      simp at hk
      rw [hk]
    rwa [this] at hkv'
  exact assoc_value_unique h1 hkv2 (alookup_mem hidx)

theorem mem_aset_self {α β : Type} [DecidableEq α] (l : List (α × β)) (k : α) (v : β) :
    (k, v) ∈ aset l k v := by
  induction l with
  | nil => simp
  | cons kv l ih =>
    rw [aset_cons]
    by_cases hk : kv.1 = k
    · rw [if_pos hk]
      exact List.mem_cons_self _ _
    · rw [if_neg hk]
      exact List.mem_cons_of_mem _ ih

theorem refsOf_aset_append {ms : List (Int × List Nat)} {p : Int} {q₀ : List Nat}
    (r : Nat) (h : alookup ms p = some q₀) :
    (refsOf (aset ms p (q₀ ++ [r]))).Perm (refsOf ms ++ [r]) := by
  refine (refsOf_aset_of_mem (q₀ ++ [r]) h).trans ?_
  have step : ((q₀ ++ [r]) ++ refsOf (aremove ms p)).Perm
      ((q₀ ++ refsOf (aremove ms p)) ++ [r]) := by
    rw [List.append_assoc, List.append_assoc]
    exact List.Perm.append_left q₀ (List.perm_append_comm)
  refine step.trans ?_
  exact List.Perm.append_right [r] (refsOf_decomp h).symm

/-- `SidesInv` is symmetric in the two sides. -/
theorem SidesInv.swap {nr : Nat} {heap : List (Nat × Order)} {idx : List (Nat × Nat)}
    {ms mo : List (Int × List Nat)} {ss so : Side}
    (S : SidesInv nr heap idx ms mo ss so) : SidesInv nr heap idx mo ms so ss := by
  obtain ⟨h1, h2, h3, h4, h5, h6, h7, h8, h9, h10, h11⟩ := S
  refine ⟨h1, h2, h4, h3, h5, h6, h7, h9, h8, ?_, ?_⟩
  · exact (List.perm_append_comm).nodup_iff.mp h10
  · intro kv hkv
    exact (List.perm_append_comm).mem_iff.mp (h11 kv hkv)

/-- The heart of `Book._add`: adding a fresh order to the `ss` side map
preserves well-formedness. -/
theorem sidesInv_add {nr : Nat} {heap : List (Nat × Order)} {idx : List (Nat × Nat)}
    {ms mo : List (Int × List Nat)} {ss so : Side} (oid : Nat) (price : Int)
    (ts size : Nat) (tob : Bool)
    (S : SidesInv nr heap idx ms mo ss so) (hfresh : alookup idx oid = none) :
    SidesInv (nr + 1) (aset heap nr ⟨oid, ss, price, size, ts, tob⟩)
      (aset idx oid nr) (aset ms price ((alookup ms price).getD [] ++ [nr])) mo ss so := by
  obtain ⟨h1, h2, h3, h4, h5, h6, h7, h8, h9, h10, h11⟩ := S
  set o : Order := ⟨oid, ss, price, size, ts, tob⟩ with ho_def
  have hheapnone : alookup heap nr = none := by
    rw [alookup_eq_none]
    intro hm
    rcases List.mem_map.mp hm with ⟨kv, hkv, hfst⟩
    exact absurd (h6 kv hkv) (by rw [hfst]; exact lt_irrefl _)
  have hheap' : aset heap nr o = heap ++ [(nr, o)] := aset_eq_append o hheapnone
  have hidx' : aset idx oid nr = idx ++ [(oid, nr)] := aset_eq_append nr hfresh
  have hNotIdx : nr ∉ idx.map Prod.snd := by
    intro hm
    rcases List.mem_map.mp hm with ⟨kv, hkv, hsnd⟩
    have := h7 kv hkv
    rw [hsnd] at this
    rw [hheapnone] at this
    simp at this
  have hNotQ : nr ∉ refsOf ms ++ refsOf mo := by
    intro hm
    rcases List.mem_append.mp hm with hm | hm
    · rcases mem_refsOf.mp hm with ⟨pq, hpq, hr⟩
      exact hNotIdx ((h8 pq hpq).2 nr hr).2.2
    · rcases mem_refsOf.mp hm with ⟨pq, hpq, hr⟩
      exact hNotIdx ((h9 pq hpq).2 nr hr).2.2
  have hlift : ∀ r v, alookup heap r = some v → alookup (aset heap nr o) r = some v := by
    intro r v hv
    rw [hheap']
    exact alookup_append_left _ hv
  have hnew : alookup (aset heap nr o) nr = some o := alookup_aset_self _ _ _
  have hidxlift : ∀ x ∈ idx.map Prod.snd, x ∈ (aset idx oid nr).map Prod.snd := by
    intro x hx
    rw [hidx', List.map_append]
    exact List.mem_append_left _ hx
  have hrefs' : (refsOf (aset ms price ((alookup ms price).getD [] ++ [nr]))).Perm
      (refsOf ms ++ [nr]) := by
    cases hms : alookup ms price with
    | none =>
      simp only [Option.getD_none, List.nil_append]
      rw [refsOf_aset_new [nr] hms]
    | some q₀ =>
      simp only [Option.getD_some]
      exact refsOf_aset_append nr hms
  have hcomb : (refsOf (aset ms price ((alookup ms price).getD [] ++ [nr])) ++ refsOf mo).Perm
      (nr :: (refsOf ms ++ refsOf mo)) := by
    refine (List.Perm.append_right _ hrefs').trans ?_
    rw [List.append_assoc]
    exact List.perm_middle
  refine ⟨?_, ?_, ?_, h4, ?_, ?_, ?_, ?_, ?_, ?_, ?_⟩
  · rw [hidx', List.map_append]
    simp only [List.map_cons, List.map_nil]
    rw [List.nodup_append]
    refine ⟨h1, List.nodup_singleton _, ?_⟩
    intro a ha hb
    simp only [List.mem_singleton] at hb
    subst hb
    exact (alookup_eq_none idx _).mp hfresh ha
  · rw [hidx', List.map_append]
    simp only [List.map_cons, List.map_nil]
    rw [List.nodup_append]
    exact ⟨h2, List.nodup_singleton _, by
      intro a ha hb
      simp only [List.mem_singleton] at hb
      subst hb
      exact hNotIdx ha⟩
  · cases hms : alookup ms price with
    | none =>
      rw [aset_eq_append _ hms, List.map_append]
      simp only [List.map_cons, List.map_nil]
      rw [List.nodup_append]
      refine ⟨h3, List.nodup_singleton _, ?_⟩
      intro a ha hb
      simp only [List.mem_singleton] at hb
      subst hb
      exact (alookup_eq_none ms _).mp hms ha
    | some q₀ =>
      rw [keys_aset_of_mem _ hms]
      exact h3
  · rw [hheap', List.map_append]
    simp only [List.map_cons, List.map_nil]
    rw [List.nodup_append]
    refine ⟨h5, List.nodup_singleton _, ?_⟩
    intro a ha hb
    simp only [List.mem_singleton] at hb
    subst hb
    exact (alookup_eq_none heap _).mp hheapnone ha
  · intro kv hkv
    rw [hheap'] at hkv
    rcases List.mem_append.mp hkv with hkv | hkv
    · exact Nat.lt_succ_of_lt (h6 kv hkv)
    · simp only [List.mem_singleton] at hkv
      subst hkv
      exact Nat.lt_succ_self _
  · intro kv hkv
    rw [hidx'] at hkv
    rcases List.mem_append.mp hkv with hkv | hkv
    · have hold := h7 kv hkv
      rcases Option.map_eq_some'.mp hold with ⟨v, hv, hvoid⟩
      rw [hlift kv.2 v hv]
      simp [hvoid]
    · simp only [List.mem_singleton] at hkv
      subst hkv
      rw [hnew]
      simp [ho_def]
  · -- queuesWf of the updated same-side map
    intro pq hpq
    rcases mem_aset hpq with rfl | hpq
    · constructor
      · simp
      · intro r hr
        rcases List.mem_append.mp hr with hr | hr
        · cases hms : alookup ms price with
          | none =>
            rw [hms] at hr
            simp at hr
          | some q₀ =>
            rw [hms] at hr
            simp only [Option.getD_some] at hr
            obtain ⟨hp, hsd, hin⟩ := (h8 (price, q₀) (alookup_mem hms)).2 r hr
            rcases Option.map_eq_some'.mp hp with ⟨v, hv, hvp⟩
            rcases Option.map_eq_some'.mp hsd with ⟨v2, hv2, hvs⟩
            rw [hv] at hv2
            cases hv2
            refine ⟨?_, ?_, hidxlift r hin⟩
            · rw [hlift r v hv]
              simp [hvp]
            · rw [hlift r v hv]
              simp [hvs]
        · simp only [List.mem_singleton] at hr
          subst hr


          refine ⟨?_, ?_, ?_⟩
          · rw [hnew]
            simp [ho_def]
          · rw [hnew]
            simp [ho_def]
          · rw [hidx', List.map_append]
            simp
    · obtain ⟨hne, hmem⟩ := h8 pq hpq
      refine ⟨hne, fun r hr => ?_⟩
      obtain ⟨hp, hsd, hin⟩ := hmem r hr
      rcases Option.map_eq_some'.mp hp with ⟨v, hv, hvp⟩
      rcases Option.map_eq_some'.mp hsd with ⟨v2, hv2, hvs⟩
      rw [hv] at hv2
      cases hv2
      refine ⟨?_, ?_, hidxlift r hin⟩
      · rw [hlift r v hv]
        simp [hvp]
      · rw [hlift r v hv]
        simp [hvs]
  · exact queuesWf_mono hlift hidxlift h9
  · rw [hcomb.nodup_iff, List.nodup_cons]
    exact ⟨hNotQ, h10⟩
  · intro kv hkv
    rw [hidx'] at hkv
    rcases List.mem_append.mp hkv with hkv | hkv
    · exact hcomb.mem_iff.mpr (List.mem_cons_of_mem _ (h11 kv hkv))
    · simp only [List.mem_singleton] at hkv
      subst hkv
      exact hcomb.mem_iff.mpr (List.mem_cons_self _ _)

theorem mem_aset_cases {α β : Type} [DecidableEq α] {l : List (α × β)} {k : α} {v : β}
    {kv' : α × β} (hn : (l.map Prod.fst).Nodup) (h : kv' ∈ aset l k v) :
    kv' = (k, v) ∨ (kv' ∈ l ∧ kv'.1 ≠ k) := by
  induction l with
  | nil =>
    simp only [aset_nil, List.mem_singleton] at h
    exact Or.inl h
  | cons kv l ih =>
    simp only [List.map_cons, List.nodup_cons] at hn
    rw [aset_cons] at h
    by_cases hk : kv.1 = k
    · rw [if_pos hk] at h
      rcases List.mem_cons.mp h with h | h
      · exact Or.inl h
      · right
        refine ⟨List.mem_cons_of_mem _ h, ?_⟩
        intro hkk
        rw [← hk] at hkk
        exact hn.1 (hkk ▸ List.mem_map.mpr ⟨kv', h, rfl⟩)
    · rw [if_neg hk] at h
      rcases List.mem_cons.mp h with h | h
      · subst h
        exact Or.inr ⟨List.mem_cons_self _ _, hk⟩
      · rcases ih hn.2 h with h2 | h2
        · exact Or.inl h2
        · exact Or.inr ⟨List.mem_cons_of_mem _ h2.1, h2.2⟩

theorem mem_aremove_key_ne {α β : Type} [DecidableEq α] {l : List (α × β)} {k : α}
    {kv' : α × β} (hn : (l.map Prod.fst).Nodup) (h : kv' ∈ aremove l k) :
    kv' ∈ l ∧ kv'.1 ≠ k := by
  induction l with
  | nil => simp at h
  | cons kv l ih =>
    simp only [List.map_cons, List.nodup_cons] at hn
    rw [aremove_cons] at h
    by_cases hk : kv.1 = k
    · rw [if_pos hk] at h
      refine ⟨List.mem_cons_of_mem _ h, ?_⟩
      intro hkk
      rw [← hk] at hkk
      exact hn.1 (hkk ▸ List.mem_map.mpr ⟨kv', h, rfl⟩)
    · rw [if_neg hk] at h
      rcases List.mem_cons.mp h with h | h
      · subst h
        exact ⟨List.mem_cons_self _ _, hk⟩
      · obtain ⟨hm, hne⟩ := ih hn.2 h
        exact ⟨List.mem_cons_of_mem _ hm, hne⟩

theorem removeFirstEq_some_exists {h : List (Nat × Order)} {o : Order} {q q2 : List Nat}
    (hr : removeFirstEq h o q = some q2) : ∃ r' ∈ q, alookup h r' = some o := by
  induction q generalizing q2 with
  | nil => simp [removeFirstEq] at hr
  | cons r₁ rs ih =>
    rw [removeFirstEq] at hr
    by_cases h₁ : alookup h r₁ = some o
    · exact ⟨r₁, List.mem_cons_self _ _, h₁⟩
    · rw [if_neg h₁] at hr
      rcases Option.map_eq_some'.mp hr with ⟨q3, hq3, _⟩
      rcases ih hq3 with ⟨r', hr', hv⟩
      exact ⟨r', List.mem_cons_of_mem _ hr', hv⟩

theorem mem_snd_aremove {α : Type} [DecidableEq α] {idx : List (α × Nat)} {oid : α} {r : Nat}
    (h1 : (idx.map Prod.fst).Nodup) (hidx : alookup idx oid = some r) {r' : Nat}
    (hne : r' ≠ r) (hm : r' ∈ idx.map Prod.snd) :
    r' ∈ (aremove idx oid).map Prod.snd := by
  rcases List.mem_map.mp hm with ⟨kv, hkv, hsnd⟩
  have hk : kv.1 ≠ oid := by
    intro hkk
    have : kv = (oid, kv.2) := by
      rcases kv with ⟨a, c⟩
      simp only at hkk
      rw [hkk]
    rw [this] at hkv
    have := assoc_value_unique h1 hkv (alookup_mem hidx)
    exact hne (by rw [← hsnd, this])
  exact List.mem_map.mpr ⟨kv, mem_aremove_of_ne hkv hk, hsnd⟩

/-- The heart of the destroy path shared by `Book._cancel` (size reaching
zero) and conceptually by queue removal: dropping order `r` from the
index and from its queue at key `p` in the `ss` side map preserves
well-formedness, for any rewrite `o'` of the heap cell at `r`. -/
theorem sidesInv_removeOrder {nr : Nat} {heap : List (Nat × Order)} {idx : List (Nat × Nat)}
    {ms mo : List (Int × List Nat)} {ss so : Side} {oid r : Nat} {o : Order} (o' : Order)
    {p : Int} {q : List Nat}
    (S : SidesInv nr heap idx ms mo ss so)
    (hidx : alookup idx oid = some r) (ho : alookup heap r = some o)
    (hq : alookup ms p = some q) (hr : r ∈ q) :
    SidesInv nr (aset heap r o') (aremove idx oid)
      (if q.erase r = [] then aremove ms p else aset ms p (q.erase r)) mo ss so := by
  obtain ⟨h1, h2, h3, h4, h5, h6, h7, h8, h9, h10, h11⟩ := S
  have hdecomp : (refsOf ms).Perm (q ++ refsOf (aremove ms p)) := refsOf_decomp hq
  have hqErase : q.Perm (r :: q.erase r) := List.perm_cons_erase hr
  have hbig : (refsOf ms ++ refsOf mo).Perm
      (r :: ((q.erase r ++ refsOf (aremove ms p)) ++ refsOf mo)) := by
    refine (List.Perm.append_right _ hdecomp).trans ?_
    refine (List.Perm.append_right _ (List.Perm.append_right _ hqErase)).trans ?_
    simp only [List.cons_append]
    exact List.Perm.refl _
  have hnod : ((q.erase r ++ refsOf (aremove ms p)) ++ refsOf mo).Nodup ∧
      r ∉ (q.erase r ++ refsOf (aremove ms p)) ++ refsOf mo := by
    have := hbig.nodup_iff.mp h10
    rw [List.nodup_cons] at this
    exact ⟨this.2, this.1⟩
  have hrefs' : (refsOf (if q.erase r = [] then aremove ms p else aset ms p (q.erase r))).Perm
      (q.erase r ++ refsOf (aremove ms p)) := by
    by_cases hqe : q.erase r = []
    · rw [if_pos hqe, hqe, List.nil_append]
    · rw [if_neg hqe]
      exact refsOf_aset_of_mem _ hq
  -- no other queue position carries r
  have hrOnly : ∀ x, x ∈ (q.erase r ++ refsOf (aremove ms p)) ++ refsOf mo → x ≠ r := by
    intro x hx hxr
    subst hxr
    exact hnod.2 hx
  have hkeysms' : ((if q.erase r = [] then aremove ms p else aset ms p (q.erase r)).map
      Prod.fst).Nodup := by
    by_cases hqe : q.erase r = []
    · rw [if_pos hqe]
      exact h3.sublist ((aremove_sublist ms p).map Prod.fst)
    · rw [if_neg hqe, keys_aset_of_mem _ hq]
      exact h3
  have hoid_eq : o.oid = oid := by
    have := h7 (oid, r) (alookup_mem hidx)
    rw [ho] at this
    simpa using this
  have hliftne : ∀ r'', r'' ≠ r → alookup (aset heap r o') r'' = alookup heap r'' := by
    intro r'' hne
    exact alookup_aset_ne heap o' hne
  have hidxrefsne : ∀ kv, kv ∈ aremove idx oid → kv.2 ≠ r := by
    intro kv hkv hsndr
    obtain ⟨hmem, hkey⟩ := mem_aremove_key_ne h1 hkv
    have hkv_eq : kv = (oid, r) :=
      List.inj_on_of_nodup_map h2 hmem (alookup_mem hidx) (by simpa using hsndr)
    exact hkey (by rw [hkv_eq])
  have hmemIdx' : ∀ kv, kv ∈ aremove idx oid → kv ∈ idx :=
    fun kv hkv => (mem_aremove_key_ne h1 hkv).1
  refine ⟨?_, ?_, hkeysms', h4, ?_, ?_, ?_, ?_, ?_, ?_, ?_⟩
  · exact h1.sublist ((aremove_sublist idx oid).map Prod.fst)
  · exact h2.sublist ((aremove_sublist idx oid).map Prod.snd)
  · rw [keys_aset_of_mem o' ho]
    exact h5
  · intro kv hkv
    rcases mem_aset hkv with rfl | hkv
    · exact h6 (r, o) (alookup_mem ho)
    · exact h6 kv hkv
  · intro kv hkv
    have hne := hidxrefsne kv hkv
    rw [hliftne kv.2 hne]
    exact h7 kv (hmemIdx' kv hkv)
  · -- queuesWf of the shrunken same-side map
    intro pq hpq
    have hcases : pq = (p, q.erase r) ∨ (pq ∈ ms ∧ pq.1 ≠ p) := by
      by_cases hqe : q.erase r = []
      · rw [if_pos hqe] at hpq
        exact Or.inr (mem_aremove_key_ne h3 hpq)
      · rw [if_neg hqe] at hpq
        exact mem_aset_cases h3 hpq
    rcases hcases with rfl | ⟨hpm, hpne⟩
    · have hqe : ¬ q.erase r = [] := by
        intro hqe
        rw [hqe] at hpq
        have hpq2 : (p, ([] : List Nat)) ∈ aremove ms p := by simpa using hpq
        obtain ⟨_, hkey⟩ := mem_aremove_key_ne h3 hpq2
        exact hkey rfl
      refine ⟨hqe, fun r' hr' => ?_⟩
      have hr'q : r' ∈ q := List.mem_of_mem_erase hr'
      have hr'ne : r' ≠ r := by
        refine hrOnly r' ?_
        exact List.mem_append_left _ (List.mem_append_left _ hr')
      obtain ⟨hp2, hs2, hin⟩ := (h8 (p, q) (alookup_mem hq)).2 r' hr'q
      rw [hliftne r' hr'ne]
      exact ⟨hp2, hs2, mem_snd_aremove h1 hidx hr'ne hin⟩
    · have hprem : pq ∈ aremove ms p := mem_aremove_of_ne hpm hpne
      obtain ⟨hne2, hmem2⟩ := h8 pq hpm
      refine ⟨hne2, fun r' hr' => ?_⟩
      have hr'ne : r' ≠ r := by
        refine hrOnly r' ?_
        refine List.mem_append_left _ (List.mem_append_right _ ?_)
        exact mem_refsOf.mpr ⟨pq, hprem, hr'⟩
      obtain ⟨hp2, hs2, hin⟩ := hmem2 r' hr'
      rw [hliftne r' hr'ne]
      exact ⟨hp2, hs2, mem_snd_aremove h1 hidx hr'ne hin⟩
  · -- queuesWf of the untouched other side
    intro pq hpq
    obtain ⟨hne2, hmem2⟩ := h9 pq hpq
    refine ⟨hne2, fun r' hr' => ?_⟩
    have hr'ne : r' ≠ r := by
      refine hrOnly r' ?_
      exact List.mem_append_right _ (mem_refsOf.mpr ⟨pq, hpq, hr'⟩)
    obtain ⟨hp2, hs2, hin⟩ := hmem2 r' hr'
    rw [hliftne r' hr'ne]
    exact ⟨hp2, hs2, mem_snd_aremove h1 hidx hr'ne hin⟩
  · exact ((List.Perm.append_right _ hrefs').nodup_iff).mpr hnod.1
  · intro kv hkv
    have hne := hidxrefsne kv hkv
    have hold := h11 kv (hmemIdx' kv hkv)
    have hstep := hbig.mem_iff.mp hold
    rcases List.mem_cons.mp hstep with heq | hstep2
    · exact absurd heq hne
    · exact ((List.Perm.append_right _ hrefs').mem_iff).mpr hstep2

/-- Rewriting the heap cell of a live order without changing its id,
side or price (a size decrement, or a same-price size/timestamp edit)
preserves well-formedness. -/
theorem sidesInv_cellUpdate {nr : Nat} {heap : List (Nat × Order)} {idx : List (Nat × Nat)}
    {ms mo : List (Int × List Nat)} {ss so : Side} {r : Nat} {o o' : Order}
    (S : SidesInv nr heap idx ms mo ss so)
    (ho : alookup heap r = some o)
    (hoid : o'.oid = o.oid) (hside : o'.side = o.side) (hprice : o'.price = o.price) :
    SidesInv nr (aset heap r o') idx ms mo ss so := by
  obtain ⟨h1, h2, h3, h4, h5, h6, h7, h8, h9, h10, h11⟩ := S
  have hlook : ∀ r'', (alookup (aset heap r o') r'').map Order.oid =
      (alookup heap r'').map Order.oid ∧
      (alookup (aset heap r o') r'').map Order.side = (alookup heap r'').map Order.side ∧
      (alookup (aset heap r o') r'').map Order.price = (alookup heap r'').map Order.price := by
    intro r''
    by_cases hne : r'' = r
    · subst hne
      rw [alookup_aset_self, ho]
      simp [hoid, hside, hprice]
    · rw [alookup_aset_ne heap o' hne]
      exact ⟨rfl, rfl, rfl⟩
  refine ⟨h1, h2, h3, h4, ?_, ?_, ?_, ?_, ?_, h10, h11⟩
  · rw [keys_aset_of_mem o' ho]
    exact h5
  · intro kv hkv
    rcases mem_aset hkv with rfl | hkv
    · exact h6 (r, o) (alookup_mem ho)
    · exact h6 kv hkv
  · intro kv hkv
    rw [(hlook kv.2).1]
    exact h7 kv hkv
  · intro pq hpq
    obtain ⟨hne2, hmem2⟩ := h8 pq hpq
    refine ⟨hne2, fun r' hr' => ?_⟩
    obtain ⟨hp2, hs2, hin⟩ := hmem2 r' hr'
    rw [(hlook r').2.2, (hlook r').2.1]
    exact ⟨hp2, hs2, hin⟩
  · intro pq hpq
    obtain ⟨hne2, hmem2⟩ := h9 pq hpq
    refine ⟨hne2, fun r' hr' => ?_⟩
    obtain ⟨hp2, hs2, hin⟩ := hmem2 r' hr'
    rw [(hlook r').2.2, (hlook r').2.1]
    exact ⟨hp2, hs2, hin⟩

theorem add_preserves_inv {b : Book} {ts : Nat} {s : Side} {oid : Nat} {price : Int}
    {size : Nat} {tob : Bool} (hs : s = Side.A ∨ s = Side.B)
    (inv : BookInv b) (hfresh : alookup b.orders_by_id oid = none) :
    BookInv (b.add ts s oid price size tob) := by
  rcases hs with rfl | rfl
  · have core := sidesInv_add oid price ts size tob (SidesInv.swap inv) hfresh
    have sw := SidesInv.swap core
    simpa [Book.add, Book.sideLevels, Book.setSideLevels, BookInv] using sw
  · have core := sidesInv_add oid price ts size tob inv hfresh
    simpa [Book.add, Book.sideLevels, Book.setSideLevels, BookInv] using core

/-- In a well-formed book, the only queue member whose (possibly
updated) heap value coincides with the live order at `r` is `r`
itself. -/
theorem queue_value_unique {b : Book} (inv : BookInv b) {s : Side}
    (hs : s = Side.A ∨ s = Side.B) {oid r : Nat} {o : Order} (o' : Order)
    {price : Int} {q : List Nat}
    (hidx : alookup b.orders_by_id oid = some r) (ho : alookup b.heap r = some o)
    (hq : alookup (b.sideLevels s) price = some q) (hoid : o'.oid = o.oid) :
    ∀ r' ∈ q, alookup (aset b.heap r o') r' = some o' → r' = r := by
  intro r' hr' hv
  by_cases hne : r' = r
  · exact hne
  · rw [alookup_aset_ne b.heap o' hne] at hv
    have hwf := inv.queuesWf_side hs (price, q) (alookup_mem hq)
    have hin : r' ∈ b.orders_by_id.map Prod.snd := (hwf.2 r' hr').2.2
    have := inv.unique_oid hidx (by simpa [Book.idxRefs] using hin) hv
      (by rw [hoid, inv.oid_eq hidx ho])
    exact absurd this hne

theorem cancel_preserves_inv {b : Book} {s : Side} {oid : Nat} {price : Int} {size : Nat}
    {b' : Book} (hs : s = Side.A ∨ s = Side.B) (inv : BookInv b)
    (h : b.cancel s oid price size = Except.ok b') : BookInv b' := by
  cases hidx : alookup b.orders_by_id oid with
  | none =>
    simp only [Book.cancel, hidx] at h
    injection h with h2
    subst h2
    exact inv
  | some r =>
    cases ho : alookup b.heap r with
    | none =>
      simp only [Book.cancel, hidx, ho] at h
      cases h
    | some o =>
      cases hq : alookup (b.sideLevels s) price with
      | none =>
        simp only [Book.cancel, hidx, ho, hq] at h
        cases h
      | some q =>
        by_cases hsz : size ≤ o.size
        · by_cases hz : o.size - size = 0
          · -- full cancel: the order is destroyed
            simp only [Book.cancel, hidx, ho, hq, if_pos hsz, hz, eq_self_iff_true,
              if_true] at h
            have hex : ∃ q2, removeFirstEq (aset b.heap r { o with size := 0 })
                { o with size := 0 } q = some q2 := by
              cases hrem : removeFirstEq (aset b.heap r { o with size := 0 })
                  { o with size := 0 } q with
              | none => rw [hrem] at h; cases h
              | some q2 => exact ⟨q2, rfl⟩
            obtain ⟨q2, hrem⟩ := hex
            have huniq := queue_value_unique inv hs { o with size := 0 } hidx ho hq rfl
            obtain ⟨r1, hr1q, hr1v⟩ := removeFirstEq_some_exists hrem
            have hr1r : r1 = r := huniq r1 hr1q hr1v
            subst hr1r
            have hq2 : q2 = q.erase r1 := by
              rw [removeFirstEq_some hr1q hr1v huniq] at hrem
              injection hrem with h2
              exact h2.symm
            subst hq2
            rw [hrem] at h
            injection h with h2
            subst h2
            rcases hs with rfl | rfl
            · have core2 := sidesInv_removeOrder { o with size := 0 }
                (SidesInv.swap inv) hidx ho
                (by simpa [Book.sideLevels] using hq) hr1q
              have sw := SidesInv.swap core2
              simpa [BookInv, Book.setSideLevels, Book.sideLevels] using sw
            · have core2 := sidesInv_removeOrder { o with size := 0 }
                (inv : SidesInv b.nextRef b.heap b.orders_by_id b.bids b.offers Side.B Side.A)
                hidx ho (by simpa [Book.sideLevels] using hq) hr1q
              simpa [BookInv, Book.setSideLevels, Book.sideLevels] using core2
          · -- partial cancel: in-place size decrement
            simp only [Book.cancel, hidx, ho, hq, if_pos hsz, if_neg hz] at h
            injection h with h2
            subst h2
            exact sidesInv_cellUpdate inv ho rfl rfl rfl
        · simp only [Book.cancel, hidx, ho, hq, if_neg hsz] at h
          cases h

/-- The heart of the price-changing `Book._modify`: removing order `r`
from its queue at `o.price`, rewriting its heap cell to `o'` (new price
`newp`, side still `ss`), and appending it to the (lazily created)
queue at `newp` preserves well-formedness. -/
theorem sidesInv_move {nr : Nat} {heap : List (Nat × Order)} {idx : List (Nat × Nat)}
    {ms mo : List (Int × List Nat)} {ss so : Side} {oid r : Nat} {o : Order} (o' : Order)
    {q : List Nat} (newp : Int)
    (S : SidesInv nr heap idx ms mo ss so)
    (hidx : alookup idx oid = some r) (ho : alookup heap r = some o)
    (hq : alookup ms o.price = some q) (hr : r ∈ q)
    (hnp : newp ≠ o.price)
    (hoid : o'.oid = o.oid) (hside : o'.side = ss) (hprice : o'.price = newp) :
    SidesInv nr (aset heap r o') idx
      (aset (if q.erase r = [] then aremove ms o.price else aset ms o.price (q.erase r))
        newp
        ((alookup (if q.erase r = [] then aremove ms o.price
          else aset ms o.price (q.erase r)) newp).getD [] ++ [r]))
      mo ss so := by
  obtain ⟨h1, h2, h3, h4, h5, h6, h7, h8, h9, h10, h11⟩ := S
  set L1 := if q.erase r = [] then aremove ms o.price else aset ms o.price (q.erase r)
    with hL1_def
  have hdecomp : (refsOf ms).Perm (q ++ refsOf (aremove ms o.price)) := refsOf_decomp hq
  have hqErase : q.Perm (r :: q.erase r) := List.perm_cons_erase hr
  have hbig : (refsOf ms ++ refsOf mo).Perm
      (r :: ((q.erase r ++ refsOf (aremove ms o.price)) ++ refsOf mo)) := by
    refine (List.Perm.append_right _ hdecomp).trans ?_
    refine (List.Perm.append_right _ (List.Perm.append_right _ hqErase)).trans ?_
    simp only [List.cons_append]
    exact List.Perm.refl _
  have hnod : ((q.erase r ++ refsOf (aremove ms o.price)) ++ refsOf mo).Nodup ∧
      r ∉ (q.erase r ++ refsOf (aremove ms o.price)) ++ refsOf mo := by
    have := hbig.nodup_iff.mp h10
    rw [List.nodup_cons] at this
    exact ⟨this.2, this.1⟩
  have hrefsL1 : (refsOf L1).Perm (q.erase r ++ refsOf (aremove ms o.price)) := by
    rw [hL1_def]
    by_cases hqe : q.erase r = []
    · rw [if_pos hqe, hqe, List.nil_append]
    · rw [if_neg hqe]
      exact refsOf_aset_of_mem _ hq
  have hrOnly : ∀ x, x ∈ refsOf L1 ++ refsOf mo → x ≠ r := by
    intro x hx hxr
    subst hxr
    rcases List.mem_append.mp hx with hx | hx
    · exact hnod.2 (List.mem_append_left _ (hrefsL1.mem_iff.mp hx))
    · exact hnod.2 (List.mem_append_right _ hx)
  have hkeysL1 : (L1.map Prod.fst).Nodup := by
    rw [hL1_def]
    by_cases hqe : q.erase r = []
    · rw [if_pos hqe]
      exact h3.sublist ((aremove_sublist ms o.price).map Prod.fst)
    · rw [if_neg hqe, keys_aset_of_mem _ hq]
      exact h3
  have hmemL1 : ∀ pq, pq ∈ L1 →
      (pq = (o.price, q.erase r) ∧ q.erase r ≠ []) ∨ (pq ∈ ms ∧ pq.1 ≠ o.price) := by
    intro pq hpq
    rw [hL1_def] at hpq
    by_cases hqe : q.erase r = []
    · rw [if_pos hqe] at hpq
      exact Or.inr (mem_aremove_key_ne h3 hpq)
    · rw [if_neg hqe] at hpq
      rcases mem_aset_cases h3 hpq with rfl | hpq2
      · exact Or.inl ⟨rfl, hqe⟩
      · exact Or.inr hpq2
  have hlookL1 : alookup L1 newp = alookup ms newp := by
    rw [hL1_def]
    by_cases hqe : q.erase r = []
    · rw [if_pos hqe]
      exact alookup_aremove_ne ms hnp
    · rw [if_neg hqe]
      exact alookup_aset_ne ms _ hnp
  have hliftne : ∀ r'', r'' ≠ r → alookup (aset heap r o') r'' = alookup heap r'' :=
    fun r'' hne => alookup_aset_ne heap o' hne
  have hnew : alookup (aset heap r o') r = some o' := alookup_aset_self _ _ _
  have hoid_eq : o.oid = oid := by
    have := h7 (oid, r) (alookup_mem hidx)
    rw [ho] at this
    simpa using this
  have hridx : r ∈ idx.map Prod.snd := List.mem_map.mpr ⟨(oid, r), alookup_mem hidx, rfl⟩
  have hrefsL2 : (refsOf (aset L1 newp ((alookup L1 newp).getD [] ++ [r]))).Perm
      (refsOf L1 ++ [r]) := by
    cases hd : alookup L1 newp with
    | none =>
      simp only [Option.getD_none, List.nil_append]
      rw [refsOf_aset_new [r] hd]
    | some d =>
      simp only [Option.getD_some]
      exact refsOf_aset_append r hd
  have hL2big : (refsOf (aset L1 newp ((alookup L1 newp).getD [] ++ [r])) ++ refsOf mo).Perm
      (r :: (refsOf L1 ++ refsOf mo)) := by
    refine (List.Perm.append_right _ hrefsL2).trans ?_
    rw [List.append_assoc]
    exact List.perm_middle
  have hnodL1mo : (refsOf L1 ++ refsOf mo).Nodup := by
    refine ((List.Perm.append_right _ hrefsL1).nodup_iff).mpr hnod.1
  refine ⟨h1, h2, ?_, h4, ?_, ?_, ?_, ?_, ?_, ?_, ?_⟩
  · cases hd : alookup L1 newp with
    | none =>
      rw [aset_eq_append _ hd, List.map_append]
      simp only [List.map_cons, List.map_nil]
      rw [List.nodup_append]
      refine ⟨hkeysL1, List.nodup_singleton _, ?_⟩
      intro a ha hb
      simp only [List.mem_singleton] at hb
      subst hb
      exact (alookup_eq_none L1 _).mp hd ha
    | some d =>
      rw [keys_aset_of_mem _ hd]
      exact hkeysL1
  · rw [keys_aset_of_mem o' ho]
    exact h5
  · intro kv hkv
    rcases mem_aset hkv with rfl | hkv
    · exact h6 (r, o) (alookup_mem ho)
    · exact h6 kv hkv
  · intro kv hkv
    by_cases hkr : kv.2 = r
    · have hkv_eq : kv = (oid, r) :=
        List.inj_on_of_nodup_map h2 hkv (alookup_mem hidx) (by simpa using hkr)
      subst hkv_eq
      simp only [hkr, hnew]
      simp [hoid, hoid_eq]
    · rw [hliftne kv.2 hkr]
      exact h7 kv hkv
  · -- queuesWf of the rebuilt same-side map
    intro pq hpq
    rcases mem_aset_cases hkeysL1 hpq with rfl | ⟨hpq2, hpqne⟩
    · refine ⟨by simp, fun r' hr' => ?_⟩
      rcases List.mem_append.mp hr' with hr'd | hr'r
      · cases hd : alookup L1 newp with
        | none =>
          rw [hd] at hr'd
          simp at hr'd
        | some d =>
          rw [hd] at hr'd
          simp only [Option.getD_some] at hr'd
          have hdms : alookup ms newp = some d := by rw [← hlookL1]; exact hd
          obtain ⟨hp2, hs2, hin⟩ := (h8 (newp, d) (alookup_mem hdms)).2 r' hr'd
          have hr'ne : r' ≠ r := by
            refine hrOnly r' ?_
            exact List.mem_append_left _ (mem_refsOf.mpr ⟨(newp, d), alookup_mem hd, hr'd⟩)
          rw [hliftne r' hr'ne]
          exact ⟨hp2, hs2, hin⟩
      · simp only [List.mem_singleton] at hr'r
        subst hr'r
        rw [hnew]
        simp only [Option.map_some']
        exact ⟨by rw [hprice], by rw [hside], hridx⟩
    · rcases hmemL1 pq hpq2 with ⟨rfl, hqe⟩ | ⟨hpm, hpne⟩
      · refine ⟨hqe, fun r' hr' => ?_⟩
        have hr'q : r' ∈ q := List.mem_of_mem_erase hr'
        have hr'ne : r' ≠ r := by
          refine hrOnly r' ?_
          refine List.mem_append_left _ (hrefsL1.mem_iff.mpr ?_)
          exact List.mem_append_left _ hr'
        obtain ⟨hp2, hs2, hin⟩ := (h8 (o.price, q) (alookup_mem hq)).2 r' hr'q
        rw [hliftne r' hr'ne]
        exact ⟨hp2, hs2, hin⟩
      · obtain ⟨hne2, hmem2⟩ := h8 pq hpm
        refine ⟨hne2, fun r' hr' => ?_⟩
        have hr'ne : r' ≠ r := by
          refine hrOnly r' ?_
          refine List.mem_append_left _ (hrefsL1.mem_iff.mpr ?_)
          refine List.mem_append_right _ ?_
          exact mem_refsOf.mpr ⟨pq, mem_aremove_of_ne hpm hpne, hr'⟩
        obtain ⟨hp2, hs2, hin⟩ := hmem2 r' hr'
        rw [hliftne r' hr'ne]
        exact ⟨hp2, hs2, hin⟩
  · -- queuesWf of the untouched other side
    intro pq hpq
    obtain ⟨hne2, hmem2⟩ := h9 pq hpq
    refine ⟨hne2, fun r' hr' => ?_⟩
    have hr'ne : r' ≠ r := by
      refine hrOnly r' ?_
      exact List.mem_append_right _ (mem_refsOf.mpr ⟨pq, hpq, hr'⟩)
    obtain ⟨hp2, hs2, hin⟩ := hmem2 r' hr'
    rw [hliftne r' hr'ne]
    exact ⟨hp2, hs2, hin⟩
  · rw [hL2big.nodup_iff, List.nodup_cons]
    refine ⟨?_, hnodL1mo⟩
    intro hcon
    exact hrOnly r hcon rfl
  · intro kv hkv
    rw [hL2big.mem_iff]
    by_cases hkr : kv.2 = r
    · rw [hkr]
      exact List.mem_cons_self _ _
    · refine List.mem_cons_of_mem _ ?_
      have hold := h11 kv hkv
      have hstep := hbig.mem_iff.mp hold
      rcases List.mem_cons.mp hstep with heq | hstep2
      · exact absurd heq hkr
      · rcases List.mem_append.mp hstep2 with hs2 | hs2
        · exact List.mem_append_left _ (hrefsL1.mem_iff.mpr hs2)
        · exact List.mem_append_right _ hs2

theorem modify_preserves_inv {b : Book} {ts : Nat} {s : Side} {oid : Nat} {price : Int}
    {size : Nat} {b' : Book} (hs : s = Side.A ∨ s = Side.B) (inv : BookInv b)
    (h : b.modify ts s oid price size = Except.ok b') : BookInv b' := by
  cases hidx : alookup b.orders_by_id oid with
  | none =>
    simp only [Book.modify, hidx] at h
    injection h with h2
    subst h2
    exact inv
  | some r =>
    cases ho : alookup b.heap r with
    | none =>
      simp only [Book.modify, hidx, ho] at h
      cases h
    | some o =>
      by_cases hsd : o.side = s
      · cases hq : alookup (b.sideLevels s) o.price with
        | none =>
          simp only [Book.modify, hidx, ho, if_pos hsd, hq] at h
          cases h
        | some prevq =>
          by_cases hpne : o.price ≠ price
          · -- price change: move to the tail of the destination queue
            simp only [Book.modify, hidx, ho, if_pos hsd, hq, if_pos hpne] at h
            have hex : ∃ q2, removeFirstEq b.heap o prevq = some q2 := by
              cases hrem : removeFirstEq b.heap o prevq with
              | none => rw [hrem] at h; cases h
              | some q2 => exact ⟨q2, rfl⟩
            obtain ⟨q2, hrem⟩ := hex
            have huniq : ∀ r' ∈ prevq, alookup b.heap r' = some o → r' = r := by
              intro r' hr' hv
              have hwf := inv.queuesWf_side hs (o.price, prevq) (alookup_mem hq)
              have hin : r' ∈ b.orders_by_id.map Prod.snd := (hwf.2 r' hr').2.2
              exact inv.unique_oid hidx (by simpa [Book.idxRefs] using hin) hv
                (inv.oid_eq hidx ho)
            obtain ⟨r1, hr1q, hr1v⟩ := removeFirstEq_some_exists hrem
            have hr1r : r1 = r := huniq r1 hr1q hr1v
            subst hr1r
            have hq2 : q2 = prevq.erase r1 := by
              rw [removeFirstEq_some hr1q hr1v huniq] at hrem
              injection hrem with h2
              exact h2.symm
            subst hq2
            rw [hrem] at h
            injection h with h2
            subst h2
            have hnp : price ≠ o.price := fun hh => hpne hh.symm
            rcases hs with rfl | rfl
            · have core := sidesInv_move
                { o with ts_event := ts, size := size, price := price } price
                (SidesInv.swap inv) hidx ho
                (by simpa [Book.sideLevels] using hq) hr1q hnp rfl (by simpa using hsd) rfl
              have sw := SidesInv.swap core
              simpa [BookInv, Book.setSideLevels, Book.sideLevels] using sw
            · have core := sidesInv_move
                { o with ts_event := ts, size := size, price := price } price
                (inv : SidesInv b.nextRef b.heap b.orders_by_id b.bids b.offers Side.B Side.A)
                hidx ho (by simpa [Book.sideLevels] using hq) hr1q hnp rfl
                (by simpa using hsd) rfl
              simpa [BookInv, Book.setSideLevels, Book.sideLevels] using core
          · -- same price: in-place size and timestamp update
            simp only [Book.modify, hidx, ho, if_pos hsd, hq, if_neg hpne] at h
            injection h with h2
            subst h2
            have hpeq : price = o.price := by
              by_contra hc
              exact hpne (fun hh => hc hh.symm)
            exact sidesInv_cellUpdate inv ho rfl rfl (by simpa using hpeq)
      · simp only [Book.modify, hidx, ho, if_neg hsd] at h
        cases h

theorem clearAll_preserves_inv {b : Book} (inv : BookInv b) : BookInv b.clearAll := by
  obtain ⟨h1, h2, h3, h4, h5, h6, h7, h8, h9, h10, h11⟩ := inv
  refine ⟨by simp [Book.clearAll], by simp [Book.clearAll], by simp [Book.clearAll],
    by simp [Book.clearAll], h5, h6, ?_, ?_, ?_, by simp [Book.clearAll], ?_⟩
  · intro kv hkv
    simp [Book.clearAll] at hkv
  · intro pq hpq
    simp [Book.clearAll] at hpq
  · intro pq hpq
    simp [Book.clearAll] at hpq
  · intro kv hkv
    simp [Book.clearAll] at hkv

theorem empty_inv : BookInv Book.empty := by decide

theorem apply_preserves_inv {b b' : Book} {e : MBOEvent} (inv : BookInv b)
    (hstd : standardEvent e)
    (hfresh : e.action = EventAction.A → alookup b.orders_by_id e.order_id = none)
    (h : b.apply e = Except.ok b') : BookInv b' := by
  rcases hstd with hR | ⟨hact, hside, htob⟩
  · simp only [Book.apply, hR] at h
    injection h with h2
    subst h2
    exact clearAll_preserves_inv inv
  · have htob2 : ¬ (e.price = UNDEF_PRICE ∧ e.flags_tob = true) := htob
    have hsideok : ¬ ¬ (e.side = Side.A ∨ e.side = Side.B) := not_not_intro hside
    rcases hact with hA | hC | hM
    · simp only [Book.apply, hA, if_neg hsideok, if_neg htob2] at h
      simp at h
      subst h
      exact add_preserves_inv hside inv (hfresh hA)
    · simp only [Book.apply, hC, if_neg hsideok, if_neg htob2] at h
      simp at h
      exact cancel_preserves_inv hside inv h
    · simp only [Book.apply, hM, if_neg hsideok, if_neg htob2] at h
      simp at h
      exact modify_preserves_inv hside inv h

theorem freshRun_applyAll_inv (es : List MBOEvent) :
    ∀ b b' : Book, BookInv b → freshRunB b es = true →
      Book.applyAll b es = Except.ok b' → BookInv b' := by
  induction es with
  | nil =>
    intro b b' inv hf h
    rw [Book.applyAll] at h
    injection h with h2
    subst h2
    exact inv
  | cons e es ih =>
    intro b b' inv hf h
    rw [Book.applyAll] at h
    rw [freshRunB] at hf
    cases hap : b.apply e with
    | error err =>
      rw [hap] at h
      cases h
    | ok b2 =>
      rw [hap] at h hf
      simp only [Bool.and_eq_true, decide_eq_true_eq, Bool.or_eq_true] at hf
      have hfresh : e.action = EventAction.A → alookup b.orders_by_id e.order_id = none := by
        intro hA
        rcases hf.1.2 with hne | hnone
        · exact absurd hA hne
        · exact hnone
      have inv2 := apply_preserves_inv inv hf.1.1 hfresh hap
      exact ih b2 b' inv2 hf.2 h

theorem freshRun_append_left (es₁ : List MBOEvent) :
    ∀ (es₂ : List MBOEvent) (b : Book), freshRunB b (es₁ ++ es₂) = true →
      freshRunB b es₁ = true := by
  induction es₁ with
  | nil =>
    intro es₂ b _
    rfl
  | cons e es ih =>
    intro es₂ b hf
    rw [List.cons_append, freshRunB] at hf
    rw [freshRunB]
    simp only [Bool.and_eq_true] at hf ⊢
    refine ⟨hf.1, ?_⟩
    cases hap : b.apply e with
    | error err => rfl
    | ok b2 =>
      rw [hap] at hf
      exact ih es₂ b2 hf.2

/-- In a well-formed book the queue of side `s` at price `p` is, up to
permutation plus heap lookups, the set of index-tracked orders whose
current side and price are `(s, p)`; hence both size sums agree. -/
theorem bookInv_sums {b : Book} (inv : BookInv b) {s : Side}
    (hs : s = Side.A ∨ s = Side.B) (p : Int) : indexSum b s p = levelSum b s p := by
  have invc := inv
  obtain ⟨h1, h2, h3, h4, h5, h6, h7, h8, h9, h10, h11⟩ := invc
  have hmem_of_idx : ∀ r, r ∈ b.idxRefs →
      (alookup b.heap r).map Order.side = some s →
      (alookup b.heap r).map Order.price = some p →
      ∃ q, alookup (b.sideLevels s) p = some q ∧ r ∈ q := by
    intro r hr hside hprice
    rcases mem_idxRefs.mp hr with ⟨kv, hkv, rfl⟩
    have hlook : alookup b.orders_by_id kv.1 = some kv.2 := alookup_of_mem_nodup h1 hkv
    rcases Option.map_eq_some'.mp hside with ⟨o, ho, hos⟩
    rcases Option.map_eq_some'.mp hprice with ⟨o2, ho2, hop⟩
    rw [ho] at ho2
    cases ho2
    obtain ⟨q, hq, hrq, _⟩ := inv.locate hlook ho
    rw [hos, hop] at hq
    exact ⟨q, hq, hrq⟩
  cases hq : alookup (b.sideLevels s) p with
  | none =>
    have hfilter : b.idxRefs.filter (fun r =>
        decide ((alookup b.heap r).map Order.side = some s) &&
        decide ((alookup b.heap r).map Order.price = some p)) = [] := by
      rw [List.filter_eq_nil_iff]
      intro r hr hpred
      simp only [Bool.and_eq_true, decide_eq_true_eq] at hpred
      obtain ⟨q, hq2, _⟩ := hmem_of_idx r hr hpred.1 hpred.2
      rw [hq] at hq2
      cases hq2
    unfold indexSum levelSum
    rw [hq, hfilter]
    simp
  | some q =>
    have hqwf := inv.queuesWf_side hs (p, q) (alookup_mem hq)
    have hqnodup : q.Nodup := by
      have hside_nodup : (refsOf (b.sideLevels s)).Nodup := by
        rcases hs with rfl | rfl
        · exact List.Nodup.of_append_right (by simpa [Book.sideLevels, Book.queueRefs] using h10)
        · exact List.Nodup.of_append_left (by simpa [Book.sideLevels, Book.queueRefs] using h10)
      have := (refsOf_decomp hq).nodup_iff.mp hside_nodup
      exact List.Nodup.of_append_left this
    have h2i : b.idxRefs.Nodup := h2
    have hperm : (b.idxRefs.filter (fun r =>
        decide ((alookup b.heap r).map Order.side = some s) &&
        decide ((alookup b.heap r).map Order.price = some p))).Perm q := by
      rw [List.perm_ext_iff_of_nodup (h2i.filter _) hqnodup]
      intro r
      constructor
      · intro hrf
        have hr := List.mem_of_mem_filter hrf
        have hpred := List.of_mem_filter hrf
        simp only [Bool.and_eq_true, decide_eq_true_eq] at hpred
        obtain ⟨q2, hq2, hrq2⟩ := hmem_of_idx r hr hpred.1 hpred.2
        rw [hq] at hq2
        injection hq2 with h2q
        exact h2q ▸ hrq2
      · intro hrq
        obtain ⟨hp2, hs2, hin⟩ := hqwf.2 r hrq
        refine List.mem_filter.mpr ⟨by simpa [Book.idxRefs] using hin, ?_⟩
        simp only [Bool.and_eq_true, decide_eq_true_eq]
        exact ⟨hs2, hp2⟩
    have := (hperm.map (fun r => ((alookup b.heap r).map Order.size).getD 0)).sum_eq
    simp only [indexSum, levelSum, hq, Option.getD_some]
    exact this

/-- A well-formed book satisfies the spec's placement invariant. -/
theorem BookInv.placement {b : Book} (inv : BookInv b) : orderPlacement b := by
  have invc := inv
  obtain ⟨h1, h2, h3, h4, h5, h6, h7, h8, h9, h10, h11⟩ := invc
  constructor
  · intro kv hkv
    constructor
    · exact List.count_eq_one_of_mem h10 (h11 kv hkv)
    · have hlook : alookup b.orders_by_id kv.1 = some kv.2 := alookup_of_mem_nodup h1 hkv
      have hwf := h7 kv hkv
      rcases Option.map_eq_some'.mp hwf with ⟨o, ho, _⟩
      obtain ⟨q, hq, hrq, _⟩ := inv.locate hlook ho
      unfold Book.inQueueAtCurrent
      rw [ho]
      show decide (kv.2 ∈ (alookup (b.sideLevels o.side) o.price).getD []) = true
      rw [hq]
      simpa using hrq
  · intro r hr
    exact inv.queueRefs_mem_idx hr

/-- C5: applying a Cancel or Modify event (bid/ask side, not the
synthetic top-of-book clear) whose order id is absent from the index
returns normally and leaves the book entirely unchanged, so repeated
application of such events is idempotent. -/
theorem claim_C5 (b : Book) (e : MBOEvent)
    (hact : e.action = EventAction.C ∨ e.action = EventAction.M)
    (hside : e.side = Side.A ∨ e.side = Side.B) (htob : ¬ tobClear e)
    (habs : alookup b.orders_by_id e.order_id = none) :
    b.apply e = Except.ok b := by
  have htob2 : ¬ (e.price = UNDEF_PRICE ∧ e.flags_tob = true) := htob
  have hsideok : ¬ ¬ (e.side = Side.A ∨ e.side = Side.B) := not_not_intro hside
  rcases hact with hC | hM
  · simp only [Book.apply, hC, if_neg hsideok, if_neg htob2]
    simp [Book.cancel, habs]
  · simp only [Book.apply, hM, if_neg hsideok, if_neg htob2]
    simp [Book.modify, habs]

/-- C5 witness: a Cancel naming the never-added id 99 is a no-op. -/
theorem claim_C5_witness :
    ((⟨0, EventAction.C, Side.B, 99, 100, 5, false, 7, 3⟩ : MBOEvent).action =
        EventAction.C ∨
      (⟨0, EventAction.C, Side.B, 99, 100, 5, false, 7, 3⟩ : MBOEvent).action =
        EventAction.M) ∧
    alookup (⟨1, [(0, ⟨1, Side.B, 100, 10, 5, false⟩)], [(1, 0)], [(100, [0])],
      []⟩ : Book).orders_by_id 99 = none ∧
    (⟨1, [(0, ⟨1, Side.B, 100, 10, 5, false⟩)], [(1, 0)], [(100, [0])], []⟩ : Book).apply
      ⟨0, EventAction.C, Side.B, 99, 100, 5, false, 7, 3⟩ =
      Except.ok ⟨1, [(0, ⟨1, Side.B, 100, 10, 5, false⟩)], [(1, 0)], [(100, [0])], []⟩ :=
  ⟨Or.inl rfl, by decide,
    claim_C5 _ _ (Or.inl rfl) (Or.inr rfl) (by decide) (by decide)⟩

/-- C4 counterexample: with order 1 resting at (B, 100) with size 5, a
Cancel naming id 1 with size 10 > 5 but price 200 (no level there)
raises the map-key lookup error, not an InvariantViolation — the level
lookup in `_cancel` precedes the size assert. -/
theorem claim_C4_cex :
    alookup (⟨1, [(0, ⟨1, Side.B, 100, 5, 5, false⟩)], [(1, 0)], [(100, [0])],
      []⟩ : Book).orders_by_id 1 = some 0 ∧
    (alookup (⟨1, [(0, ⟨1, Side.B, 100, 5, 5, false⟩)], [(1, 0)], [(100, [0])],
      []⟩ : Book).heap 0).map Order.size = some 5 ∧
    (⟨1, [(0, ⟨1, Side.B, 100, 5, 5, false⟩)], [(1, 0)], [(100, [0])], []⟩ : Book).apply
      ⟨6, EventAction.C, Side.B, 1, 200, 10, false, 7, 3⟩ =
      Except.error Err.keyError ∧
    ¬ Err.keyError.isInvariantViolation := by
  refine ⟨by decide, by decide, by decide, by decide⟩

/-- C4 (amended): when the event's (side, price) does denote an existing
level — as on a well-formed feed, where they equal the order's own side
and resting price — a Cancel whose size exceeds the order's remaining
size signals the cancel-size InvariantViolation, and a Modify (with a
bid/ask event side) naming a present order of a different recorded side
signals the side-change InvariantViolation. -/
theorem claim_C4 (b : Book) (e : MBOEvent) (r : Nat) (o : Order)
    (hside : e.side = Side.A ∨ e.side = Side.B) (htob : ¬ tobClear e)
    (hidx : alookup b.orders_by_id e.order_id = some r)
    (ho : alookup b.heap r = some o) :
    (e.action = EventAction.C → ∀ q, alookup (b.sideLevels e.side) e.price = some q →
      o.size < e.size →
      b.apply e = Except.error Err.cancelExceeds ∧
        Err.cancelExceeds.isInvariantViolation) ∧
    (e.action = EventAction.M → o.side ≠ e.side →
      b.apply e = Except.error Err.sideChanged ∧
        Err.sideChanged.isInvariantViolation) := by
  have htob2 : ¬ (e.price = UNDEF_PRICE ∧ e.flags_tob = true) := htob
  have hsideok : ¬ ¬ (e.side = Side.A ∨ e.side = Side.B) := not_not_intro hside
  constructor
  · intro hC q hq hsz
    have hnle : ¬ e.size ≤ o.size := not_le_of_lt hsz
    refine ⟨?_, trivial⟩
    simp only [Book.apply, hC, if_neg hsideok, if_neg htob2]
    simp only [Book.cancel, hidx, ho, hq, if_neg hnle]
    simp
  · intro hM hsd
    refine ⟨?_, trivial⟩
    simp only [Book.apply, hM, if_neg hsideok, if_neg htob2]
    simp only [Book.modify, hidx, ho, if_neg hsd]
    simp

/-- C4 witness: both InvariantViolation paths fire at concrete inputs. -/
theorem claim_C4_witness :
    (⟨1, [(0, ⟨1, Side.B, 100, 5, 5, false⟩)], [(1, 0)], [(100, [0])], []⟩ : Book).apply
      ⟨6, EventAction.C, Side.B, 1, 100, 10, false, 7, 3⟩ =
      Except.error Err.cancelExceeds ∧
    (⟨1, [(0, ⟨1, Side.B, 100, 5, 5, false⟩)], [(1, 0)], [(100, [0])], []⟩ : Book).apply
      ⟨6, EventAction.M, Side.A, 1, 100, 5, false, 7, 3⟩ =
      Except.error Err.sideChanged :=
  ⟨((claim_C4 _ ⟨6, EventAction.C, Side.B, 1, 100, 10, false, 7, 3⟩ 0
      ⟨1, Side.B, 100, 5, 5, false⟩ (Or.inr rfl) (by decide) (by decide) (by decide)).1
      rfl [0] (by decide) (by decide)).1,
   ((claim_C4 _ ⟨6, EventAction.M, Side.A, 1, 100, 5, false, 7, 3⟩ 0
      ⟨1, Side.B, 100, 5, 5, false⟩ (Or.inl rfl) (by decide) (by decide) (by decide)).2
      rfl (by decide)).1⟩

/-- C10 counterexample to the "exactly": order 1 rests at (B, 100),
order 2 at (B, 200); a Cancel naming id 1 at price 200 violates the
precondition (the event's price differs from order 1's resting price)
yet does not fail — the level at 200 exists, so the event is absorbed,
decrementing order 1 while it rests at 100. -/
theorem claim_C10_cex :
    (⟨2, [(0, ⟨1, Side.B, 100, 10, 5, false⟩), (1, ⟨2, Side.B, 200, 8, 6, false⟩)],
      [(1, 0), (2, 1)], [(100, [0]), (200, [1])], []⟩ : Book).apply
      ⟨7, EventAction.C, Side.B, 1, 200, 3, false, 7, 3⟩ =
      Except.ok
        ⟨2, [(0, ⟨1, Side.B, 100, 7, 5, false⟩), (1, ⟨2, Side.B, 200, 8, 6, false⟩)],
          [(1, 0), (2, 1)], [(100, [0]), (200, [1])], []⟩ := by
  decide

/-- C10 (amended): for a Cancel naming a present order id in a
well-formed book, the `_get_level` lookup at the event's (side, price)
cannot fail when the event's side and price equal the order's current
side and resting price; and when no level exists at the event's
(side, price), the Cancel fails with the map-key lookup error — before
any size check — which is neither the no-op nor an InvariantViolation. -/
theorem claim_C10 (b : Book) (e : MBOEvent) (r : Nat) (o : Order)
    (hC : e.action = EventAction.C) (hside : e.side = Side.A ∨ e.side = Side.B)
    (htob : ¬ tobClear e) (inv : BookInv b)
    (hidx : alookup b.orders_by_id e.order_id = some r)
    (ho : alookup b.heap r = some o) :
    (e.side = o.side ∧ e.price = o.price → b.apply e ≠ Except.error Err.keyError) ∧
    (alookup (b.sideLevels e.side) e.price = none →
      b.apply e = Except.error Err.keyError ∧ ¬ Err.keyError.isInvariantViolation) := by
  have htob2 : ¬ (e.price = UNDEF_PRICE ∧ e.flags_tob = true) := htob
  have hsideok : ¬ ¬ (e.side = Side.A ∨ e.side = Side.B) := not_not_intro hside
  constructor
  · rintro ⟨hes, hep⟩
    obtain ⟨q, hq, hrq, _⟩ := inv.locate hidx ho
    rw [← hes, ← hep] at hq
    simp only [Book.apply, hC, if_neg hsideok, if_neg htob2]
    simp only [Book.cancel, hidx, ho, hq]
    by_cases hsz : e.size ≤ o.size
    · rw [if_pos hsz]
      by_cases hz : o.size - e.size = 0
      · simp only [hz, eq_self_iff_true, if_true]
        have huniq := queue_value_unique inv hside { o with size := 0 }
          hidx ho hq rfl
        rw [removeFirstEq_some hrq (by rw [alookup_aset_self]) huniq]
        simp
      · simp only [if_neg hz]
        simp
    · rw [if_neg hsz]
      simp
  · intro hq
    refine ⟨?_, by decide⟩
    simp only [Book.apply, hC, if_neg hsideok, if_neg htob2]
    simp only [Book.cancel, hidx, ho, hq]
    simp

/-- C10 witness: with the event's (side, price) equal to the order's,
the Cancel does not raise the map-key error; with a level-less price it
does. -/
theorem claim_C10_witness :
    ((⟨1, [(0, ⟨1, Side.B, 100, 5, 5, false⟩)], [(1, 0)], [(100, [0])], []⟩ : Book).apply
        ⟨6, EventAction.C, Side.B, 1, 100, 2, false, 7, 3⟩ ≠
      Except.error Err.keyError) ∧
    (⟨1, [(0, ⟨1, Side.B, 100, 5, 5, false⟩)], [(1, 0)], [(100, [0])], []⟩ : Book).apply
      ⟨6, EventAction.C, Side.B, 1, 300, 10, false, 7, 3⟩ =
      Except.error Err.keyError :=
  ⟨(claim_C10 _ ⟨6, EventAction.C, Side.B, 1, 100, 2, false, 7, 3⟩ 0
      ⟨1, Side.B, 100, 5, 5, false⟩ rfl (Or.inr rfl) (by decide) (by decide)
      (by decide) (by decide)).1 (by decide),
   ((claim_C10 _ ⟨6, EventAction.C, Side.B, 1, 300, 10, false, 7, 3⟩ 0
      ⟨1, Side.B, 100, 5, 5, false⟩ rfl (Or.inr rfl) (by decide) (by decide)
      (by decide) (by decide)).2 (by decide)).1⟩

/-- C3 counterexample: a Modify that sets the resting order's size to
zero does not destroy it — the order stays in the order-id index (and
in its LevelQueue) with size 0. -/
theorem claim_C3_cex :
    Book.applyAll Book.empty
      [⟨5, EventAction.A, Side.B, 1, 100, 10, false, 7, 3⟩,
       ⟨6, EventAction.M, Side.B, 1, 100, 0, false, 7, 3⟩] =
      Except.ok ⟨1, [(0, ⟨1, Side.B, 100, 0, 6, false⟩)], [(1, 0)], [(100, [0])], []⟩ ∧
    alookup (⟨1, [(0, ⟨1, Side.B, 100, 0, 6, false⟩)], [(1, 0)], [(100, [0])],
      []⟩ : Book).orders_by_id 1 = some 0 := by
  refine ⟨by decide, by decide⟩

/-- C3 (amended): a Cancel that decrements a resting order's size to
zero destroys it — the order id leaves the index, its reference leaves
every LevelQueue, and the LevelQueue is deleted if it emptied — while a
Modify that sets the size to zero leaves the order indexed, resting
with size 0. -/
theorem claim_C3 (b : Book) (s : Side) (oid r : Nat) (o : Order)
    (inv : BookInv b) (hs : s = Side.A ∨ s = Side.B)
    (hidx : alookup b.orders_by_id oid = some r) (ho : alookup b.heap r = some o)
    (hside : o.side = s) :
    (∀ q b2, alookup (b.sideLevels s) o.price = some q →
      b.cancel s oid o.price o.size = Except.ok b2 →
      alookup b2.orders_by_id oid = none ∧ r ∉ b2.queueRefs ∧
      alookup (b2.sideLevels s) o.price =
        (if q.erase r = [] then none else some (q.erase r))) ∧
    (∀ ts b2, b.modify ts s oid o.price 0 = Except.ok b2 →
      alookup b2.orders_by_id oid = some r ∧
      (alookup b2.heap r).map Order.size = some 0) := by
  have invc := inv
  obtain ⟨h1, h2, h3, h4, h5, h6, h7, h8, h9, h10, h11⟩ := invc
  obtain ⟨q0, hq0, hrq0, _⟩ := inv.locate hidx ho
  rw [hside] at hq0
  constructor
  · intro q b2 hq h
    have hqq : q0 = q := by
      rw [hq0] at hq
      injection hq
    subst hqq
    have horig := h
    have huniq := queue_value_unique inv hs { o with size := 0 } hidx ho hq0 rfl
    have hrem := removeFirstEq_some hrq0 (by rw [alookup_aset_self]) huniq
    simp only [Book.cancel, hidx, ho, hq0, le_refl, if_true, Nat.sub_self,
      eq_self_iff_true, hrem] at h
    injection h with h2
    subst h2
    have inv2 := cancel_preserves_inv hs inv horig
    refine ⟨?_, ?_, ?_⟩
    · show alookup (aremove b.orders_by_id oid) oid = none
      exact alookup_aremove_self h1
    · intro hcon
      have hidxmem := inv2.queueRefs_mem_idx hcon
      have hidxmem2 : r ∈ (aremove b.orders_by_id oid).map Prod.snd := hidxmem
      obtain ⟨kv, hkv, hsnd⟩ := List.mem_map.mp hidxmem2
      obtain ⟨hkmem, hkne⟩ := mem_aremove_key_ne h1 hkv
      have hkv_eq : kv = (oid, r) :=
        List.inj_on_of_nodup_map h2 hkmem (alookup_mem hidx) (by simpa using hsnd)
      exact hkne (by rw [hkv_eq])
    · have hgen : ∀ m : List (Int × List Nat), (m.map Prod.fst).Nodup →
          alookup (if q0.erase r = [] then aremove m o.price
            else aset m o.price (q0.erase r)) o.price =
          (if q0.erase r = [] then none else some (q0.erase r)) := by
        intro m hm
        by_cases hqe : q0.erase r = []
        · rw [if_pos hqe, if_pos hqe]
          exact alookup_aremove_self hm
        · rw [if_neg hqe, if_neg hqe]
          exact alookup_aset_self _ _ _
      rcases hs with rfl | rfl
      · show alookup (if q0.erase r = [] then aremove (b.sideLevels Side.A) o.price
          else aset (b.sideLevels Side.A) o.price (q0.erase r)) o.price = _
        exact hgen _ (inv.sideKeysNodup Side.A)
      · show alookup (if q0.erase r = [] then aremove (b.sideLevels Side.B) o.price
          else aset (b.sideLevels Side.B) o.price (q0.erase r)) o.price = _
        exact hgen _ (inv.sideKeysNodup Side.B)
  · intro ts b2 h
    have hnpp : ¬ o.price ≠ o.price := not_not_intro rfl
    simp only [Book.modify, hidx, ho, if_pos hside, hq0, if_neg hnpp] at h
    injection h with h2
    subst h2
    refine ⟨hidx, ?_⟩
    rw [alookup_aset_self]
    rfl

/-- C3 witness: cancelling order 1's full size 10 destroys it and
deletes its emptied level; modifying its size to 0 leaves it resting. -/
theorem claim_C3_witness :
    (alookup (⟨1, [], [], [], []⟩ : Book).orders_by_id 1 = none ∧
      0 ∉ (⟨1, [(0, ⟨1, Side.B, 100, 0, 5, false⟩)], [], [], []⟩ : Book).queueRefs ∧
      alookup ((⟨1, [(0, ⟨1, Side.B, 100, 0, 5, false⟩)], [], [], []⟩ : Book).sideLevels
        Side.B) 100 = (if ([0] : List Nat).erase 0 = [] then none
          else some (([0] : List Nat).erase 0)) ∧
      alookup (⟨1, [(0, ⟨1, Side.B, 100, 0, 9, false⟩)], [(1, 0)], [(100, [0])],
        []⟩ : Book).orders_by_id 1 = some 0) := by
  have hmain := claim_C3 ⟨1, [(0, ⟨1, Side.B, 100, 10, 5, false⟩)], [(1, 0)], [(100, [0])], []⟩
    Side.B 1 0 ⟨1, Side.B, 100, 10, 5, false⟩ (by decide) (Or.inr rfl) (by decide)
    (by decide) (by decide)
  have hc := hmain.1 [0] ⟨1, [(0, ⟨1, Side.B, 100, 0, 5, false⟩)], [], [], []⟩
    (by decide) (by decide)
  have hm := hmain.2 9 ⟨1, [(0, ⟨1, Side.B, 100, 0, 9, false⟩)], [(1, 0)], [(100, [0])], []⟩
    (by decide)
  exact ⟨hc.1, hc.2.1, hc.2.2, hm.1⟩

/-- C6: a Modify at the order's current price rewrites only the heap
cell (size and timestamp) — every queue, hence the order's position in
its LevelQueue, is untouched — while a Modify to a different price
removes exactly this order's reference from its current queue (deleting
the queue if it empties), updates price/size/timestamp, and appends the
reference at the tail of the lazily-created destination queue. -/
theorem claim_C6 (b : Book) (s : Side) (oid r : Nat) (o : Order) (ts size : Nat)
    (price : Int) (inv : BookInv b) (hs : s = Side.A ∨ s = Side.B)
    (hidx : alookup b.orders_by_id oid = some r) (ho : alookup b.heap r = some o)
    (hsd : o.side = s) :
    (price = o.price →
      b.modify ts s oid price size =
        Except.ok { b with heap := (aset b.heap r
          { o with ts_event := ts, size := size, price := price }) }) ∧
    (price ≠ o.price → ∀ prevq, alookup (b.sideLevels s) o.price = some prevq →
      b.modify ts s oid price size =
        Except.ok { (b.setSideLevels s (aset
            (if prevq.erase r = [] then aremove (b.sideLevels s) o.price
              else aset (b.sideLevels s) o.price (prevq.erase r)) price
            ((alookup (if prevq.erase r = [] then aremove (b.sideLevels s) o.price
              else aset (b.sideLevels s) o.price (prevq.erase r)) price).getD [] ++ [r])))
          with heap := (aset b.heap r
            { o with ts_event := ts, size := size, price := price }) }) := by
  obtain ⟨q0, hq0, hrq0, _⟩ := inv.locate hidx ho
  rw [hsd] at hq0
  constructor
  · intro hpe
    have hnpp : ¬ o.price ≠ price := not_not_intro hpe.symm
    simp only [Book.modify, hidx, ho, if_pos hsd, hq0, if_neg hnpp]
  · intro hpne prevq hq
    have hqq : q0 = prevq := by
      rw [hq0] at hq
      injection hq
    subst hqq
    have huniq : ∀ r' ∈ q0, alookup b.heap r' = some o → r' = r := by
      intro r' hr' hv
      have hwf := inv.queuesWf_side hs (o.price, q0) (alookup_mem hq0)
      have hin : r' ∈ b.orders_by_id.map Prod.snd := (hwf.2 r' hr').2.2
      exact inv.unique_oid hidx (by simpa [Book.idxRefs] using hin) hv
        (inv.oid_eq hidx ho)
    have hrem := removeFirstEq_some hrq0 ho huniq
    have hne2 : o.price ≠ price := Ne.symm hpne
    simp only [Book.modify, hidx, ho, if_pos hsd, hq0, if_pos hne2, hrem]

/-- C6 witness: with orders 1 and 2 queued in arrival order [0, 1] at
(B, 100), a same-price size edit of order 1 keeps the queue [0, 1];
repricing order 1 to 200 leaves [1] at 100 and appends 0 at 200. -/
theorem claim_C6_witness :
    (⟨2, [(0, ⟨1, Side.B, 100, 10, 5, false⟩), (1, ⟨2, Side.B, 100, 5, 6, false⟩)],
      [(1, 0), (2, 1)], [(100, [0, 1])], []⟩ : Book).modify 9 Side.B 1 100 7 =
      Except.ok ⟨2, [(0, ⟨1, Side.B, 100, 7, 9, false⟩), (1, ⟨2, Side.B, 100, 5, 6, false⟩)],
        [(1, 0), (2, 1)], [(100, [0, 1])], []⟩ ∧
    (⟨2, [(0, ⟨1, Side.B, 100, 10, 5, false⟩), (1, ⟨2, Side.B, 100, 5, 6, false⟩)],
      [(1, 0), (2, 1)], [(100, [0, 1])], []⟩ : Book).modify 9 Side.B 1 200 7 =
      Except.ok ⟨2, [(0, ⟨1, Side.B, 200, 7, 9, false⟩), (1, ⟨2, Side.B, 100, 5, 6, false⟩)],
        [(1, 0), (2, 1)], [(100, [1]), (200, [0])], []⟩ :=
  ⟨((claim_C6 ⟨2, [(0, ⟨1, Side.B, 100, 10, 5, false⟩), (1, ⟨2, Side.B, 100, 5, 6, false⟩)],
      [(1, 0), (2, 1)], [(100, [0, 1])], []⟩ Side.B 1 0 ⟨1, Side.B, 100, 10, 5, false⟩
      9 7 100 (by decide) (Or.inr rfl) (by decide) (by decide) (by decide)).1
      (by decide)).trans (by decide),
   (((claim_C6 ⟨2, [(0, ⟨1, Side.B, 100, 10, 5, false⟩), (1, ⟨2, Side.B, 100, 5, 6, false⟩)],
      [(1, 0), (2, 1)], [(100, [0, 1])], []⟩ Side.B 1 0 ⟨1, Side.B, 100, 10, 5, false⟩
      9 7 200 (by decide) (Or.inr rfl) (by decide) (by decide) (by decide)).2
      (by decide)) [0, 1] (by decide)).trans (by decide)⟩

/-- C1 counterexample: two Adds carrying the same order id 1 at
(B, 100).  The second Add overwrites the index entry while the first
`Order` object keeps resting in the queue, so the index-tracked size
sum at (B, 100) is 5 but the level's derived aggregate size is 15. -/
theorem claim_C1_cex :
    Book.applyAll Book.empty
      [⟨5, EventAction.A, Side.B, 1, 100, 10, false, 7, 3⟩,
       ⟨6, EventAction.A, Side.B, 1, 100, 5, false, 7, 3⟩] =
      Except.ok ⟨2, [(0, ⟨1, Side.B, 100, 10, 5, false⟩), (1, ⟨1, Side.B, 100, 5, 6, false⟩)],
        [(1, 1)], [(100, [0, 1])], []⟩ ∧
    indexSum ⟨2, [(0, ⟨1, Side.B, 100, 10, 5, false⟩), (1, ⟨1, Side.B, 100, 5, 6, false⟩)],
      [(1, 1)], [(100, [0, 1])], []⟩ Side.B 100 = 5 ∧
    levelSum ⟨2, [(0, ⟨1, Side.B, 100, 10, 5, false⟩), (1, ⟨1, Side.B, 100, 5, 6, false⟩)],
      [(1, 1)], [(100, [0, 1])], []⟩ Side.B 100 = 15 := by
  refine ⟨by decide, by decide, by decide⟩

/-- C1 (amended): along any run of Add/Cancel/Modify/Reset events from
the empty book in which every Add carries an order id absent from the
index, after every event and at every (side, price) the sum of the
sizes of the index-tracked orders currently at that side and price
equals the derived aggregate size of that side's LevelQueue at that
price (0 when absent). -/
theorem claim_C1 (es1 es2 : List MBOEvent) (b : Book)
    (hf : freshRunB Book.empty (es1 ++ es2) = true)
    (h : Book.applyAll Book.empty es1 = Except.ok b) :
    ∀ p : Int, indexSum b Side.A p = levelSum b Side.A p ∧
      indexSum b Side.B p = levelSum b Side.B p := by
  have hf1 := freshRun_append_left es1 es2 Book.empty hf
  have inv := freshRun_applyAll_inv es1 Book.empty b empty_inv hf1 h
  intro p
  exact ⟨bookInv_sums inv (Or.inl rfl) p, bookInv_sums inv (Or.inr rfl) p⟩

/-- C1 witness: a fresh Add/Add/Cancel run, checked after its prefix of
two events. -/
theorem claim_C1_witness :
    freshRunB Book.empty
      ([⟨5, EventAction.A, Side.B, 1, 100, 10, false, 7, 3⟩,
        ⟨6, EventAction.A, Side.B, 2, 100, 5, false, 7, 3⟩] ++
       [⟨7, EventAction.C, Side.B, 1, 100, 10, false, 7, 3⟩]) = true ∧
    Book.applyAll Book.empty
      [⟨5, EventAction.A, Side.B, 1, 100, 10, false, 7, 3⟩,
       ⟨6, EventAction.A, Side.B, 2, 100, 5, false, 7, 3⟩] =
      Except.ok ⟨2, [(0, ⟨1, Side.B, 100, 10, 5, false⟩), (1, ⟨2, Side.B, 100, 5, 6, false⟩)],
        [(1, 0), (2, 1)], [(100, [0, 1])], []⟩ ∧
    ∀ p : Int,
      indexSum ⟨2, [(0, ⟨1, Side.B, 100, 10, 5, false⟩), (1, ⟨2, Side.B, 100, 5, 6, false⟩)],
        [(1, 0), (2, 1)], [(100, [0, 1])], []⟩ Side.A p =
      levelSum ⟨2, [(0, ⟨1, Side.B, 100, 10, 5, false⟩), (1, ⟨2, Side.B, 100, 5, 6, false⟩)],
        [(1, 0), (2, 1)], [(100, [0, 1])], []⟩ Side.A p ∧
      indexSum ⟨2, [(0, ⟨1, Side.B, 100, 10, 5, false⟩), (1, ⟨2, Side.B, 100, 5, 6, false⟩)],
        [(1, 0), (2, 1)], [(100, [0, 1])], []⟩ Side.B p =
      levelSum ⟨2, [(0, ⟨1, Side.B, 100, 10, 5, false⟩), (1, ⟨2, Side.B, 100, 5, 6, false⟩)],
        [(1, 0), (2, 1)], [(100, [0, 1])], []⟩ Side.B p :=
  ⟨by decide, by decide,
    claim_C1 [⟨5, EventAction.A, Side.B, 1, 100, 10, false, 7, 3⟩,
        ⟨6, EventAction.A, Side.B, 2, 100, 5, false, 7, 3⟩]
      [⟨7, EventAction.C, Side.B, 1, 100, 10, false, 7, 3⟩] _ (by decide) (by decide)⟩

/-- C2 counterexample: the synthetic top-of-book clear empties the bid
side map but leaves order 1 in the order-id index, breaking the
"appears in a queue iff indexed" invariant it is claimed to preserve. -/
theorem claim_C2_cex :
    BookInv ⟨1, [(0, ⟨1, Side.B, 100, 10, 5, false⟩)], [(1, 0)], [(100, [0])], []⟩ ∧
    orderPlacement ⟨1, [(0, ⟨1, Side.B, 100, 10, 5, false⟩)], [(1, 0)], [(100, [0])], []⟩ ∧
    (⟨1, [(0, ⟨1, Side.B, 100, 10, 5, false⟩)], [(1, 0)], [(100, [0])], []⟩ : Book).apply
      ⟨6, EventAction.C, Side.B, 9, UNDEF_PRICE, 0, true, 7, 3⟩ =
      Except.ok ⟨1, [(0, ⟨1, Side.B, 100, 10, 5, false⟩)], [(1, 0)], [], []⟩ ∧
    ¬ orderPlacement ⟨1, [(0, ⟨1, Side.B, 100, 10, 5, false⟩)], [(1, 0)], [], []⟩ := by
  refine ⟨by decide, by decide, by decide, by decide⟩

/-- C2 (amended): every `Book.apply` of a standard Add/Cancel/Modify/
Reset event — the synthetic top-of-book clear excluded, and Adds
restricted to fresh order ids — preserves book well-formedness, and in
particular the invariant that an order rests in exactly one LevelQueue,
the one of its current side and price, iff it is in the order-id
index. -/
theorem claim_C2 (b b' : Book) (e : MBOEvent) (inv : BookInv b)
    (hstd : standardEvent e)
    (hfresh : e.action = EventAction.A → alookup b.orders_by_id e.order_id = none)
    (h : b.apply e = Except.ok b') : BookInv b' ∧ orderPlacement b' :=
  have inv2 := apply_preserves_inv inv hstd hfresh h
  ⟨inv2, inv2.placement⟩

/-- C2 witness: a partial Cancel applied to a one-order book. -/
theorem claim_C2_witness :
    BookInv ⟨1, [(0, ⟨1, Side.B, 100, 10, 5, false⟩)], [(1, 0)], [(100, [0])], []⟩ ∧
    standardEvent ⟨6, EventAction.C, Side.B, 1, 100, 4, false, 7, 3⟩ ∧
    (⟨1, [(0, ⟨1, Side.B, 100, 10, 5, false⟩)], [(1, 0)], [(100, [0])], []⟩ : Book).apply
      ⟨6, EventAction.C, Side.B, 1, 100, 4, false, 7, 3⟩ =
      Except.ok ⟨1, [(0, ⟨1, Side.B, 100, 6, 5, false⟩)], [(1, 0)], [(100, [0])], []⟩ ∧
    (BookInv ⟨1, [(0, ⟨1, Side.B, 100, 6, 5, false⟩)], [(1, 0)], [(100, [0])], []⟩ ∧
      orderPlacement ⟨1, [(0, ⟨1, Side.B, 100, 6, 5, false⟩)], [(1, 0)], [(100, [0])], []⟩) :=
  ⟨by decide, by decide, by decide,
    claim_C2 ⟨1, [(0, ⟨1, Side.B, 100, 10, 5, false⟩)], [(1, 0)], [(100, [0])], []⟩
      ⟨1, [(0, ⟨1, Side.B, 100, 6, 5, false⟩)], [(1, 0)], [(100, [0])], []⟩
      ⟨6, EventAction.C, Side.B, 1, 100, 4, false, 7, 3⟩ (by decide)
      (by decide) (by decide) (by decide)⟩

/-- C7: a Reset event empties the index and both side maps of the Book
of its (instrument, venue) pair, regardless of that Book's prior state,
and the Book observed at every other (instrument, venue) pair is
unchanged. -/
theorem claim_C7 (m m' : Market) (e : MBOEvent) (hR : e.action = EventAction.R)
    (h : m.apply e = Except.ok m') :
    (m'.bookAt e.instrument_id e.publisher_id).orders_by_id = [] ∧
    (m'.bookAt e.instrument_id e.publisher_id).bids = [] ∧
    (m'.bookAt e.instrument_id e.publisher_id).offers = [] ∧
    ∀ i v : Nat, ¬(i = e.instrument_id ∧ v = e.publisher_id) →
      m'.bookAt i v = m.bookAt i v := by
  have happ : ((alookup ((alookup m.books e.instrument_id).getD []) e.publisher_id).getD
      Book.empty).apply e = Except.ok (((alookup ((alookup m.books
        e.instrument_id).getD []) e.publisher_id).getD Book.empty).clearAll) := by
    simp [Book.apply, hR]
  simp only [Market.apply] at h
  rw [happ] at h
  injection h with h2
  subst h2
  have hb : (Market.bookAt ⟨aset m.books e.instrument_id
      (aset ((alookup m.books e.instrument_id).getD []) e.publisher_id
        (((alookup ((alookup m.books e.instrument_id).getD []) e.publisher_id).getD
          Book.empty).clearAll))⟩ e.instrument_id e.publisher_id) =
      ((alookup ((alookup m.books e.instrument_id).getD []) e.publisher_id).getD
        Book.empty).clearAll := by
    unfold Market.bookAt
    rw [alookup_aset_self]
    simp only [Option.getD_some]
    rw [alookup_aset_self]
    rfl
  refine ⟨by rw [hb]; rfl, by rw [hb]; rfl, by rw [hb]; rfl, ?_⟩
  intro i v hne
  unfold Market.bookAt
  by_cases hi : i = e.instrument_id
  · subst hi
    have hv : v ≠ e.publisher_id := by
      intro hv
      exact hne ⟨rfl, hv⟩
    rw [alookup_aset_self]
    simp only [Option.getD_some]
    rw [alookup_aset_ne _ _ hv]
  · rw [alookup_aset_ne _ _ hi]

/-- C7 witness: resetting instrument 7 on venue 3 empties that book and
leaves the book of venue 4 untouched. -/
theorem claim_C7_witness :
    (⟨[(7, [(3, ⟨1, [(0, ⟨1, Side.B, 100, 10, 5, false⟩)], [(1, 0)], [(100, [0])], []⟩),
        (4, ⟨1, [(0, ⟨2, Side.A, 105, 3, 5, false⟩)], [(2, 0)], [], [(105, [0])]⟩)])]⟩ :
      Market).apply ⟨9, EventAction.R, Side.N, 0, 0, 0, false, 7, 3⟩ =
      Except.ok ⟨[(7, [(3, ⟨1, [(0, ⟨1, Side.B, 100, 10, 5, false⟩)], [], [], []⟩),
        (4, ⟨1, [(0, ⟨2, Side.A, 105, 3, 5, false⟩)], [(2, 0)], [], [(105, [0])]⟩)])]⟩ ∧
    ((Market.bookAt ⟨[(7, [(3, ⟨1, [(0, ⟨1, Side.B, 100, 10, 5, false⟩)], [], [], []⟩),
        (4, ⟨1, [(0, ⟨2, Side.A, 105, 3, 5, false⟩)], [(2, 0)], [], [(105, [0])]⟩)])]⟩
        7 3).orders_by_id = [] ∧
      (Market.bookAt ⟨[(7, [(3, ⟨1, [(0, ⟨1, Side.B, 100, 10, 5, false⟩)], [], [], []⟩),
        (4, ⟨1, [(0, ⟨2, Side.A, 105, 3, 5, false⟩)], [(2, 0)], [], [(105, [0])]⟩)])]⟩
        7 3).bids = [] ∧
      Market.bookAt ⟨[(7, [(3, ⟨1, [(0, ⟨1, Side.B, 100, 10, 5, false⟩)], [], [], []⟩),
        (4, ⟨1, [(0, ⟨2, Side.A, 105, 3, 5, false⟩)], [(2, 0)], [], [(105, [0])]⟩)])]⟩
        7 4 =
      Market.bookAt ⟨[(7, [(3, ⟨1, [(0, ⟨1, Side.B, 100, 10, 5, false⟩)], [(1, 0)],
        [(100, [0])], []⟩),
        (4, ⟨1, [(0, ⟨2, Side.A, 105, 3, 5, false⟩)], [(2, 0)], [], [(105, [0])]⟩)])]⟩
        7 4) := by
  have hmain := claim_C7
    ⟨[(7, [(3, ⟨1, [(0, ⟨1, Side.B, 100, 10, 5, false⟩)], [(1, 0)], [(100, [0])], []⟩),
      (4, ⟨1, [(0, ⟨2, Side.A, 105, 3, 5, false⟩)], [(2, 0)], [], [(105, [0])]⟩)])]⟩
    ⟨[(7, [(3, ⟨1, [(0, ⟨1, Side.B, 100, 10, 5, false⟩)], [], [], []⟩),
      (4, ⟨1, [(0, ⟨2, Side.A, 105, 3, 5, false⟩)], [(2, 0)], [], [(105, [0])]⟩)])]⟩
    ⟨9, EventAction.R, Side.N, 0, 0, 0, false, 7, 3⟩ rfl (by decide)
  exact ⟨by decide, hmain.1, hmain.2.1, hmain.2.2.2 7 4 (by decide)⟩

theorem foldl_max_mem {α : Type} [LinearOrder α] (x : α) (xs : List α) :
    xs.foldl max x ∈ x :: xs := by
  induction xs generalizing x with
  | nil => simp
  | cons c cs ih =>
    rw [List.foldl_cons]
    rcases List.mem_cons.mp (ih (max x c)) with h | h
    · rw [h]
      rcases max_choice x c with h2 | h2
      · rw [h2]
        exact List.mem_cons_self _ _
      · rw [h2]
        exact List.mem_cons_of_mem _ (List.mem_cons_self _ _)
    · exact List.mem_cons_of_mem _ (List.mem_cons_of_mem _ h)

theorem foldl_max_le {α : Type} [LinearOrder α] (x : α) (xs : List α) :
    ∀ y ∈ x :: xs, y ≤ xs.foldl max x := by
  induction xs generalizing x with
  | nil =>
    intro y hy
    simp only [List.mem_singleton] at hy
    subst hy
    exact le_refl _
  | cons c cs ih =>
    intro y hy
    rw [List.foldl_cons]
    rcases List.mem_cons.mp hy with rfl | hy2
    · exact le_trans (le_max_left y c) (ih (max y c) _ (List.mem_cons_self _ _))
    · rcases List.mem_cons.mp hy2 with rfl | hy3
      · exact le_trans (le_max_right x y) (ih (max x y) _ (List.mem_cons_self _ _))
      · exact ih (max x c) y (List.mem_cons_of_mem _ hy3)

theorem foldl_min_mem {α : Type} [LinearOrder α] (x : α) (xs : List α) :
    xs.foldl min x ∈ x :: xs := by
  induction xs generalizing x with
  | nil => simp
  | cons c cs ih =>
    rw [List.foldl_cons]
    rcases List.mem_cons.mp (ih (min x c)) with h | h
    · rw [h]
      rcases min_choice x c with h2 | h2
      · rw [h2]
        exact List.mem_cons_self _ _
      · rw [h2]
        exact List.mem_cons_of_mem _ (List.mem_cons_self _ _)
    · exact List.mem_cons_of_mem _ (List.mem_cons_of_mem _ h)

theorem foldl_min_ge {α : Type} [LinearOrder α] (x : α) (xs : List α) :
    ∀ y ∈ x :: xs, xs.foldl min x ≤ y := by
  induction xs generalizing x with
  | nil =>
    intro y hy
    simp only [List.mem_singleton] at hy
    subst hy
    exact le_refl _
  | cons c cs ih =>
    intro y hy
    rw [List.foldl_cons]
    rcases List.mem_cons.mp hy with rfl | hy2
    · exact le_trans (ih (min y c) _ (List.mem_cons_self _ _)) (min_le_left y c)
    · rcases List.mem_cons.mp hy2 with rfl | hy3
      · exact le_trans (ih (min x y) _ (List.mem_cons_self _ _)) (min_le_right x y)
      · exact ih (min x c) y (List.mem_cons_of_mem _ hy3)

/-- The reducer of `aggSide` lands on a member of the per-venue price
list. -/
theorem aggSide_reducer_mem (u : Bool) (x : Int) (xs : List Int) :
    xs.foldl (fun a c => if u then max a c else min a c) x ∈ x :: xs := by
  cases u
  · simpa using foldl_min_mem x xs
  · simpa using foldl_max_mem x xs

/-- `aggregated_bbo` reports an absent side exactly when no per-venue
best level exists on that side. -/
theorem aggSide_eq_none_iff (ls : List PriceLevel) (u : Bool) :
    aggSide ls u = none ↔ ls = [] := by
  constructor
  · intro h
    cases ls with
    | nil => rfl
    | cons l rest =>
      exfalso
      simp only [aggSide] at h
      have hbp := aggSide_reducer_mem u l.price (rest.map PriceLevel.price)
      have hbp2 : (rest.map PriceLevel.price).foldl
          (fun a c => if u then max a c else min a c) l.price ∈
          (l :: rest).map PriceLevel.price := by
        simpa using hbp
      rcases List.mem_map.mp hbp2 with ⟨pl, hpl, hple⟩
      have hmemf : pl ∈ (l :: rest).filter (fun pl2 => pl2.price =
          (rest.map PriceLevel.price).foldl
            (fun a c => if u then max a c else min a c) l.price) :=
        List.mem_filter.mpr ⟨hpl, by simpa using hple⟩
      cases hf : (l :: rest).filter (fun pl2 => pl2.price =
          (rest.map PriceLevel.price).foldl
            (fun a c => if u then max a c else min a c) l.price) with
      | nil =>
        rw [hf] at hmemf
        simp at hmemf
      | cons bst rest2 =>
        rw [hf] at h
        cases h
  · rintro rfl
    rfl

/-- Characterization of a present `aggSide` result: its price is the
best (max on the bid side, min on the ask side) among the given
per-venue best levels, its size and count are the sums over exactly the
levels at that price, and its timestamp is their maximum. -/
theorem aggSide_some_spec (ls : List PriceLevel) (u : Bool) (L : PriceLevel)
    (h : aggSide ls u = some L) :
    L.price ∈ ls.map PriceLevel.price ∧
    (u = true → ∀ pl ∈ ls, pl.price ≤ L.price) ∧
    (u = false → ∀ pl ∈ ls, L.price ≤ pl.price) ∧
    L.size = ((ls.filter (fun pl => pl.price = L.price)).map PriceLevel.size).sum ∧
    L.count = ((ls.filter (fun pl => pl.price = L.price)).map PriceLevel.count).sum ∧
    L.ts_event ∈ (ls.filter (fun pl => pl.price = L.price)).map PriceLevel.ts_event ∧
    (∀ t ∈ (ls.filter (fun pl => pl.price = L.price)).map PriceLevel.ts_event,
      t ≤ L.ts_event) := by
  cases ls with
  | nil => cases h
  | cons l rest =>
    simp only [aggSide] at h
    cases hf : (l :: rest).filter (fun pl2 => pl2.price =
        (rest.map PriceLevel.price).foldl
          (fun a c => if u then max a c else min a c) l.price) with
    | nil =>
      rw [hf] at h
      cases h
    | cons bst rest2 =>
      rw [hf] at h
      injection h with h2
      subst h2
      have hLp : (⟨(rest.map PriceLevel.price).foldl
          (fun a c => if u then max a c else min a c) l.price,
          ((bst :: rest2).map PriceLevel.size).sum,
          ((bst :: rest2).map PriceLevel.count).sum,
          (rest2.map PriceLevel.ts_event).foldl max bst.ts_event⟩ : PriceLevel).price =
          (rest.map PriceLevel.price).foldl
            (fun a c => if u then max a c else min a c) l.price := rfl
      rw [hLp, hf]
      refine ⟨?_, ?_, ?_, rfl, rfl, ?_, ?_⟩
      · simpa using aggSide_reducer_mem u l.price (rest.map PriceLevel.price)
      · rintro rfl pl hpl
        have : pl.price ∈ l.price :: rest.map PriceLevel.price := by
          rcases List.mem_cons.mp hpl with rfl | hpl2
          · exact List.mem_cons_self _ _
          · exact List.mem_cons_of_mem _ (List.mem_map.mpr ⟨pl, hpl2, rfl⟩)
        simpa using foldl_max_le l.price (rest.map PriceLevel.price) pl.price this
      · rintro rfl pl hpl
        have : pl.price ∈ l.price :: rest.map PriceLevel.price := by
          rcases List.mem_cons.mp hpl with rfl | hpl2
          · exact List.mem_cons_self _ _
          · exact List.mem_cons_of_mem _ (List.mem_map.mpr ⟨pl, hpl2, rfl⟩)
        simpa using foldl_min_ge l.price (rest.map PriceLevel.price) pl.price this
      · have := foldl_max_mem bst.ts_event (rest2.map PriceLevel.ts_event)
        rcases List.mem_cons.mp this with h2 | h2
        · rw [h2]
          exact List.mem_map.mpr ⟨bst, List.mem_cons_self _ _, rfl⟩
        · rcases List.mem_map.mp h2 with ⟨pl, hpl, hple⟩
          exact List.mem_map.mpr ⟨pl, List.mem_cons_of_mem _ hpl, hple⟩
      · intro t ht
        have ht2 : t ∈ bst.ts_event :: rest2.map PriceLevel.ts_event := by
          rcases List.mem_map.mp ht with ⟨pl, hpl, hple⟩
          rcases List.mem_cons.mp hpl with rfl | hpl2
          · exact hple ▸ List.mem_cons_self _ _
          · exact List.mem_cons_of_mem _ (List.mem_map.mpr ⟨pl, hpl2, hple⟩)
        exact foldl_max_le bst.ts_event (rest2.map PriceLevel.ts_event) t ht2

/-- C8: per instrument and per side independently, `aggregated_bbo` is
absent iff no registered Book has a level on that side; a present
result carries the best price among all per-venue best levels (maximum
for bids, minimum for asks), the sums of the sizes and counts of
exactly the per-venue best levels at that price, and the maximum of
their timestamps. -/
theorem claim_C8 (m : Market) (iid : Nat) :
    ((m.aggregated_bbo iid).1 = none ↔
      ∀ bk ∈ m.venueBooks iid, bk.get_bid_level 0 = none) ∧
    ((m.aggregated_bbo iid).2 = none ↔
      ∀ bk ∈ m.venueBooks iid, bk.get_ask_level 0 = none) ∧
    (∀ L, (m.aggregated_bbo iid).1 = some L →
      L.price ∈ ((m.venueBooks iid).filterMap
        (fun bk => bk.get_bid_level 0)).map PriceLevel.price ∧
      (∀ pl ∈ (m.venueBooks iid).filterMap (fun bk => bk.get_bid_level 0),
        pl.price ≤ L.price) ∧
      L.size = ((((m.venueBooks iid).filterMap (fun bk => bk.get_bid_level 0)).filter
        (fun pl => pl.price = L.price)).map PriceLevel.size).sum ∧
      L.count = ((((m.venueBooks iid).filterMap (fun bk => bk.get_bid_level 0)).filter
        (fun pl => pl.price = L.price)).map PriceLevel.count).sum ∧
      L.ts_event ∈ (((m.venueBooks iid).filterMap (fun bk => bk.get_bid_level 0)).filter
        (fun pl => pl.price = L.price)).map PriceLevel.ts_event ∧
      ∀ t ∈ (((m.venueBooks iid).filterMap (fun bk => bk.get_bid_level 0)).filter
        (fun pl => pl.price = L.price)).map PriceLevel.ts_event, t ≤ L.ts_event) ∧
    (∀ L, (m.aggregated_bbo iid).2 = some L →
      L.price ∈ ((m.venueBooks iid).filterMap
        (fun bk => bk.get_ask_level 0)).map PriceLevel.price ∧
      (∀ pl ∈ (m.venueBooks iid).filterMap (fun bk => bk.get_ask_level 0),
        L.price ≤ pl.price) ∧
      L.size = ((((m.venueBooks iid).filterMap (fun bk => bk.get_ask_level 0)).filter
        (fun pl => pl.price = L.price)).map PriceLevel.size).sum ∧
      L.count = ((((m.venueBooks iid).filterMap (fun bk => bk.get_ask_level 0)).filter
        (fun pl => pl.price = L.price)).map PriceLevel.count).sum ∧
      L.ts_event ∈ (((m.venueBooks iid).filterMap (fun bk => bk.get_ask_level 0)).filter
        (fun pl => pl.price = L.price)).map PriceLevel.ts_event ∧
      ∀ t ∈ (((m.venueBooks iid).filterMap (fun bk => bk.get_ask_level 0)).filter
        (fun pl => pl.price = L.price)).map PriceLevel.ts_event, t ≤ L.ts_event) := by
  have hbid : (m.aggregated_bbo iid).1 =
      aggSide ((m.venueBooks iid).filterMap (fun bk => bk.get_bid_level 0)) true := rfl
  have hask : (m.aggregated_bbo iid).2 =
      aggSide ((m.venueBooks iid).filterMap (fun bk => bk.get_ask_level 0)) false := rfl
  refine ⟨?_, ?_, ?_, ?_⟩
  · rw [hbid, aggSide_eq_none_iff, List.filterMap_eq_nil_iff]
  · rw [hask, aggSide_eq_none_iff, List.filterMap_eq_nil_iff]
  · intro L hL
    rw [hbid] at hL
    have hspec := aggSide_some_spec _ true L hL
    exact ⟨hspec.1, hspec.2.1 rfl, hspec.2.2.2.1, hspec.2.2.2.2.1,
      hspec.2.2.2.2.2.1, hspec.2.2.2.2.2.2⟩
  · intro L hL
    rw [hask] at hL
    have hspec := aggSide_some_spec _ false L hL
    exact ⟨hspec.1, hspec.2.2.1 rfl, hspec.2.2.2.1, hspec.2.2.2.2.1,
      hspec.2.2.2.2.2.1, hspec.2.2.2.2.2.2⟩

/-- C8 witness: venue 3 reports best ask (5010, size 3), venue 4
reports best ask (5010, size 7); the aggregated ask is (5010, size 10,
count 2), and its size is the sum over the per-venue bests at 5010. -/
theorem claim_C8_witness :
    (Market.aggregated_bbo ⟨[(7,
      [(3, ⟨1, [(0, ⟨1, Side.A, 5010, 3, 5, false⟩)], [(1, 0)], [], [(5010, [0])]⟩),
       (4, ⟨1, [(0, ⟨2, Side.A, 5010, 7, 6, false⟩)], [(2, 0)], [], [(5010, [0])]⟩)])]⟩
      7).2 = some ⟨5010, 10, 2, 6⟩ ∧
    (⟨5010, 10, 2, 6⟩ : PriceLevel).size =
      ((((Market.venueBooks ⟨[(7,
        [(3, ⟨1, [(0, ⟨1, Side.A, 5010, 3, 5, false⟩)], [(1, 0)], [], [(5010, [0])]⟩),
         (4, ⟨1, [(0, ⟨2, Side.A, 5010, 7, 6, false⟩)], [(2, 0)], [], [(5010, [0])]⟩)])]⟩
        7).filterMap (fun bk => bk.get_ask_level 0)).filter
        (fun pl => pl.price = (⟨5010, 10, 2, 6⟩ : PriceLevel).price)).map
        PriceLevel.size).sum :=
  ⟨by decide,
    ((claim_C8 ⟨[(7,
      [(3, ⟨1, [(0, ⟨1, Side.A, 5010, 3, 5, false⟩)], [(1, 0)], [], [(5010, [0])]⟩),
       (4, ⟨1, [(0, ⟨2, Side.A, 5010, 7, 6, false⟩)], [(2, 0)], [], [(5010, [0])]⟩)])]⟩
      7).2.2.2 ⟨5010, 10, 2, 6⟩ (by decide)).2.2.1⟩

theorem aggSide_singleton (L : PriceLevel) (u : Bool) : aggSide [L] u = some L := by
  cases L with
  | mk p sz c t => simp [aggSide]

/-- C9: when an instrument is registered on exactly one venue, the
cross-venue aggregation coincides with that venue's own best bid and
offer on both sides. -/
theorem claim_C9 (m : Market) (iid vid : Nat) (bk : Book)
    (h : alookup m.books iid = some [(vid, bk)]) :
    m.aggregated_bbo iid = bk.bbo := by
  have hv : m.venueBooks iid = [bk] := by
    unfold Market.venueBooks
    rw [h]
    rfl
  unfold Market.aggregated_bbo Book.bbo
  rw [hv]
  refine Prod.ext ?_ ?_
  · show aggSide ([bk].filterMap (fun b2 => b2.get_bid_level 0)) true = bk.get_bid_level 0
    cases hb : bk.get_bid_level 0 with
    | none => simp [hb, aggSide]
    | some L => simp [hb, aggSide_singleton]
  · show aggSide ([bk].filterMap (fun b2 => b2.get_ask_level 0)) false = bk.get_ask_level 0
    cases hb : bk.get_ask_level 0 with
    | none => simp [hb, aggSide]
    | some L => simp [hb, aggSide_singleton]

/-- C9 witness: a one-venue market aggregates to that venue's own
best bid and offer. -/
theorem claim_C9_witness :
    Market.aggregated_bbo ⟨[(7,
      [(3, ⟨1, [(0, ⟨1, Side.A, 5010, 3, 5, false⟩)], [(1, 0)], [], [(5010, [0])]⟩)])]⟩ 7 =
    Book.bbo ⟨1, [(0, ⟨1, Side.A, 5010, 3, 5, false⟩)], [(1, 0)], [], [(5010, [0])]⟩ :=
  claim_C9 ⟨[(7, [(3, ⟨1, [(0, ⟨1, Side.A, 5010, 3, 5, false⟩)], [(1, 0)], [],
    [(5010, [0])]⟩)])]⟩ 7 3
    ⟨1, [(0, ⟨1, Side.A, 5010, 3, 5, false⟩)], [(1, 0)], [], [(5010, [0])]⟩ (by decide)

/-- Sanity scenario from the spec: a single Add produces the expected
book. -/
theorem scenario_single_add :
    Book.applyAll Book.empty
      [⟨5, EventAction.A, Side.B, 1, 100, 10, false, 7, 3⟩] =
    Except.ok ⟨1, [(0, ⟨1, Side.B, 100, 10, 5, false⟩)], [(1, 0)], [(100, [0])], []⟩ := by
  decide

/-- Sanity scenario from the spec: Add(1,B,100,10); Add(2,B,100,5);
Cancel(1,10) leaves best bid (100, size 5, count 1). -/
theorem scenario_add_add_cancel :
    (Book.applyAll Book.empty
      [⟨5, EventAction.A, Side.B, 1, 100, 10, false, 7, 3⟩,
       ⟨6, EventAction.A, Side.B, 2, 100, 5, false, 7, 3⟩,
       ⟨7, EventAction.C, Side.B, 1, 100, 10, false, 7, 3⟩]).map Book.bbo =
    Except.ok (some ⟨100, 5, 1, 6⟩, none) := by
  decide
